import Mathlib

/-!
Shallow embedding of the pure (non-CUDA) paths of `svox2/svox2.py`:
the sparse voxel grid data model, the world/grid coordinate transforms,
trilinear sampling, the two gradcheck volume-rendering loops
(nearest-neighbor and trilerp), the constructor and the resample link
rebuild.  Geometry is embedded over `ℚ` (the source works in float32;
we model real arithmetic exactly), and the transcendental parts of the
renderer (`exp`, `sigmoid`) over `ℝ`.  The vectorized per-ray loops of
the source are embedded as per-ray recurrences: each ray's state in the
source evolves independently (the batch dimension only packs rays
together), so a single ray's slice of the tensors is a sequence indexed
by the iteration count, frozen once the ray is pruned by `mask = t < tmax`.
-/

/-- Component-wise container for one 3D point/direction (one row of an
`(N, 3)` tensor). -/
structure V3 where
  x : ℚ
  y : ℚ
  z : ℚ

/-- Rendering options, mirroring the `RenderOptions` dataclass
(`svox2.py` lines 12-45); all float fields are modelled as `ℚ`. -/
structure RenderOptions where
  linear_interp : Bool
  background_brightness : ℚ
  step_epsilon : ℚ
  step_size : ℚ
  sigma_thresh : ℚ
  stop_thresh : ℚ

/-- Sparse grid state: resolution, the dense int32 links tensor (as a total
function on `ℤ` indices; in-range behavior is what the theorems are about),
the compact payload matrix `data` (row, channel), SH basis size, and the
world-space box.  Mirrors `SparseGrid`'s buffers (`svox2.py` lines 133-194). -/
structure SGrid where
  rx : ℕ
  ry : ℕ
  rz : ℕ
  links : ℤ → ℤ → ℤ → ℤ
  data : ℕ → ℕ → ℚ
  basisDim : ℕ
  radius : V3
  center : V3

/-- Truncation toward zero, the semantics of `tensor.to(torch.long)` used by
both render loops and by `sample` (after its clamp to nonnegative values). -/
def truncZ (q : ℚ) : ℤ := if q < 0 then Int.ceil q else Int.floor q

/-- Payload row fetch for one link (`SparseGrid._fetch_links`, lines 204-209):
rows with `link ≥ 0` read `data[link]`, negative links give the zero row. -/
def fetchRow (g : SGrid) (link : ℤ) (c : ℕ) : ℚ :=
  if 0 ≤ link then g.data link.toNat c else 0

/-- One axis of `world2grid` (lines 536-549): `offset + p * scaling` with
`offset = (0.5 * (1 - center/radius)) * R - 0.5` and
`scaling = (0.5 / radius) * R` (`_offset`/`_scaling` from `__init__`). -/
def w2gAx (R : ℕ) (rad cen p : ℚ) : ℚ :=
  ((1/2) * (1 - cen / rad)) * (R : ℚ) - 1/2 + p * (((1/2) / rad) * (R : ℚ))

/-- One axis of `grid2world` (lines 551-564): `roffset + p * rscaling` with
`roffset = radius * (1/R - 1) + center` and `rscaling = 2 * radius / R`. -/
def g2wAx (R : ℕ) (rad cen p : ℚ) : ℚ :=
  (rad * (1 / (R : ℚ) - 1) + cen) + p * (2 * rad / (R : ℚ))

/-- Vectorized `world2grid` on one point. -/
def w2gV (g : SGrid) (p : V3) : V3 :=
  ⟨w2gAx g.rx g.radius.x g.center.x p.x,
   w2gAx g.ry g.radius.y g.center.y p.y,
   w2gAx g.rz g.radius.z g.center.z p.z⟩

/-- Claim C2: with per-axis `radius > 0` and resolution `R ≥ 1`,
`world2grid (grid2world p) = p` exactly over the rationals, one axis at a
time (the three axes are independent in both `addcmul` maps). -/
theorem C2_world_grid_roundtrip (R : ℕ) (rad cen p : ℚ)
    (hrad : 0 < rad) (hR : 1 ≤ R) :
    w2gAx R rad cen (g2wAx R rad cen p) = p := by
  have hR0 : (R : ℚ) ≠ 0 := by
    have : 0 < R := Nat.lt_of_lt_of_le Nat.zero_lt_one hR
    exact_mod_cast this.ne'
  have hrad0 : rad ≠ 0 := ne_of_gt hrad
  unfold w2gAx g2wAx
  field_simp
  ring

/-- Witness for C2 at a concrete instance: `R = 4`, `radius = 1`,
`center = 0`, `p = 7/3`. -/
theorem C2_world_grid_roundtrip_witness :
    (0 : ℚ) < 1 ∧ 1 ≤ 4 ∧ w2gAx 4 1 0 (g2wAx 4 1 0 (7/3)) = 7/3 :=
  ⟨by norm_num, by norm_num, C2_world_grid_roundtrip 4 1 0 (7/3) (by norm_num) (by norm_num)⟩

/-- Clamp one coordinate into `[0, R - 1]`: `clamp_min_(0.0)` followed by
`clamp_max_(R - 1)` in `SparseGrid.sample` (lines 230-232). -/
def clampAx (R : ℕ) (x : ℚ) : ℚ := min (max x 0) ((R : ℚ) - 1)

/-- The clamped grid-space point used by `sample` (lines 228-232):
optional `world2grid`, then the per-axis clamp. -/
def sampleP2 (g : SGrid) (gcoords : Bool) (p : V3) : V3 :=
  let p1 := if gcoords then p else w2gV g p
  ⟨clampAx g.rx p1.x, clampAx g.ry p1.y, clampAx g.rz p1.z⟩

/-- The lower-corner index of `sample` (lines 233-235): truncation to int64
(`.to(torch.long)`) followed by `clamp_max_(R - 2)` per axis. -/
def sampleLo (g : SGrid) (gcoords : Bool) (p : V3) : ℤ × ℤ × ℤ :=
  let p2 := sampleP2 g gcoords p
  (min (truncZ p2.x) ((g.rx : ℤ) - 2),
   min (truncZ p2.y) ((g.ry : ℤ) - 2),
   min (truncZ p2.z) ((g.rz : ℤ) - 2))

/-- Payload row at one integer lattice corner: link lookup composed with
`_fetch_links`. -/
def cornerRow (g : SGrid) (i j k : ℤ) (c : ℕ) : ℚ := fetchRow g (g.links i j k) c

/-- One output channel of the pure path of `SparseGrid.sample`
(lines 227-267), following the source's `c00/c01/c10/c11 → c0/c1 → samples`
reduction with weights `wb = p₂ - l`, `wa = 1 - wb`. -/
def sampleSrcC (g : SGrid) (gcoords : Bool) (p : V3) (c : ℕ) : ℚ :=
  let p2 := sampleP2 g gcoords p
  let l := sampleLo g gcoords p
  let wbx : ℚ := p2.x - l.1
  let wby : ℚ := p2.y - l.2.1
  let wbz : ℚ := p2.z - l.2.2
  let wax : ℚ := 1 - wbx
  let way : ℚ := 1 - wby
  let waz : ℚ := 1 - wbz
  let c00 := cornerRow g l.1 l.2.1 l.2.2 c * waz + cornerRow g l.1 l.2.1 (l.2.2 + 1) c * wbz
  let c01 := cornerRow g l.1 (l.2.1 + 1) l.2.2 c * waz + cornerRow g l.1 (l.2.1 + 1) (l.2.2 + 1) c * wbz
  let c10 := cornerRow g (l.1 + 1) l.2.1 l.2.2 c * waz + cornerRow g (l.1 + 1) l.2.1 (l.2.2 + 1) c * wbz
  let c11 := cornerRow g (l.1 + 1) (l.2.1 + 1) l.2.2 c * waz + cornerRow g (l.1 + 1) (l.2.1 + 1) (l.2.2 + 1) c * wbz
  let c0 := c00 * way + c01 * wby
  let c1 := c10 * way + c11 * wby
  c0 * wax + c1 * wbx

/-- Spec-side restatement of the sampler (`spec.md` §4.2, written from the
spec's words, to be compared with `sampleSrcC`): clamp to `[0, R_i − 1]`,
lower corner `l = ⌊p⌋` clamped to `[0, R_i − 2]`, fractional `f = p − l`,
then the trilinear combination of the eight corner payload rows, each row
being `D[link]` when `link ≥ 0` and all-zeros otherwise. -/
def sampleSpecC (g : SGrid) (gcoords : Bool) (p : V3) (c : ℕ) : ℚ :=
  let p2 := sampleP2 g gcoords p
  let lx : ℤ := min (max 0 (Int.floor p2.x)) ((g.rx : ℤ) - 2)
  let ly : ℤ := min (max 0 (Int.floor p2.y)) ((g.ry : ℤ) - 2)
  let lz : ℤ := min (max 0 (Int.floor p2.z)) ((g.rz : ℤ) - 2)
  let fx : ℚ := p2.x - lx
  let fy : ℚ := p2.y - ly
  let fz : ℚ := p2.z - lz
  (1 - fx) * (1 - fy) * (1 - fz) * cornerRow g lx ly lz c +
  (1 - fx) * (1 - fy) * fz * cornerRow g lx ly (lz + 1) c +
  (1 - fx) * fy * (1 - fz) * cornerRow g lx (ly + 1) lz c +
  (1 - fx) * fy * fz * cornerRow g lx (ly + 1) (lz + 1) c +
  fx * (1 - fy) * (1 - fz) * cornerRow g (lx + 1) ly lz c +
  fx * (1 - fy) * fz * cornerRow g (lx + 1) ly (lz + 1) c +
  fx * fy * (1 - fz) * cornerRow g (lx + 1) (ly + 1) lz c +
  fx * fy * fz * cornerRow g (lx + 1) (ly + 1) (lz + 1) c

/-- Truncation toward zero agrees with the floor on nonnegative inputs. -/
theorem truncZ_of_nonneg {q : ℚ} (h : 0 ≤ q) : truncZ q = Int.floor q := by
  simp [truncZ, not_lt.mpr h]

/-- Clamped coordinates are nonnegative. -/
theorem clampAx_nonneg (R : ℕ) (x : ℚ) (hR : 1 ≤ R) : 0 ≤ clampAx R x := by
  have : (1 : ℚ) ≤ (R : ℚ) := by exact_mod_cast hR
  simp only [clampAx, le_min_iff, le_max_iff]
  constructor
  · right; rfl
  · linarith

/-- Clamped coordinates do not exceed `R - 1`. -/
theorem clampAx_le (R : ℕ) (x : ℚ) : clampAx R x ≤ (R : ℚ) - 1 := min_le_right _ _

/-- Claim C3: the pure path of `sample` computes exactly the trilinear
interpolation of the eight corner payload rows described by the spec: after
the optional `world2grid` map and the clamp to `[0, R_i − 1]`, the corner is
the floor clamped to `[0, R_i − 2]` and corners with negative links
contribute the zero row (`R_i ≥ 1` so that the clamp bounds are ordered). -/
theorem C3_sample_is_spec_trilerp (g : SGrid) (gcoords : Bool) (p : V3) (c : ℕ)
    (hx : 1 ≤ g.rx) (hy : 1 ≤ g.ry) (hz : 1 ≤ g.rz) :
    sampleSrcC g gcoords p c = sampleSpecC g gcoords p c := by
  have hpx : 0 ≤ (sampleP2 g gcoords p).x := clampAx_nonneg _ _ hx
  have hpy : 0 ≤ (sampleP2 g gcoords p).y := clampAx_nonneg _ _ hy
  have hpz : 0 ≤ (sampleP2 g gcoords p).z := clampAx_nonneg _ _ hz
  have flx : max 0 (Int.floor (sampleP2 g gcoords p).x) = Int.floor (sampleP2 g gcoords p).x :=
    max_eq_right (Int.floor_nonneg.mpr hpx)
  have fly : max 0 (Int.floor (sampleP2 g gcoords p).y) = Int.floor (sampleP2 g gcoords p).y :=
    max_eq_right (Int.floor_nonneg.mpr hpy)
  have flz : max 0 (Int.floor (sampleP2 g gcoords p).z) = Int.floor (sampleP2 g gcoords p).z :=
    max_eq_right (Int.floor_nonneg.mpr hpz)
  unfold sampleSrcC sampleSpecC sampleLo
  simp only [truncZ_of_nonneg hpx, truncZ_of_nonneg hpy, truncZ_of_nonneg hpz,
    flx, fly, flz]
  ring

/-- Witness for C3: a concrete grid (`R = (4,4,4)`, identity-like links,
constant payload) and point. -/
theorem C3_sample_is_spec_trilerp_witness :
    (1 ≤ 4 ∧ 1 ≤ 4 ∧ 1 ≤ 4) ∧
    sampleSrcC ⟨4, 4, 4, fun _ _ _ => 0, fun _ _ => 1, 1, ⟨1,1,1⟩, ⟨0,0,0⟩⟩ true ⟨3/2, 1/2, 2⟩ 0 =
    sampleSpecC ⟨4, 4, 4, fun _ _ _ => 0, fun _ _ => 1, 1, ⟨1,1,1⟩, ⟨0,0,0⟩⟩ true ⟨3/2, 1/2, 2⟩ 0 :=
  ⟨⟨by norm_num, by norm_num, by norm_num⟩,
   C3_sample_is_spec_trilerp _ true _ 0 (by norm_num) (by norm_num) (by norm_num)⟩

/-- Per-ray loop inputs after the shared setup of the two gradcheck
renderers (`svox2.py` lines 289-301 / 363-375): grid-space origin
(`world2grid` of the world origin), grid-space direction rescaled to unit
norm (`dirs * delta_scale`), the world-distance conversion factor
`delta_scale = 1 / ‖scaling * gsz * v‖`, and the SH basis values
`eval_sh_bases(basis_dim, viewdirs)` of the unit world direction.  The
normalization itself divides by a Euclidean norm (a square root), so the
loop is embedded from these setup outputs. -/
structure RaySpec where
  o : V3
  d : V3
  ds : ℚ
  sh : ℕ → ℚ

/-- Reciprocal direction with the source's sentinel:
`invdirs = 1/dirs; invdirs[dirs == 0] = 1e9` (lines 300-301). -/
def sentInv (d : ℚ) : ℚ := if d = 0 then 1000000000 else 1 / d

/-- The three reciprocal direction components of a ray. -/
def invOf (r : RaySpec) : V3 := ⟨sentInv r.d.x, sentInv r.d.y, sentInv r.d.z⟩

/-- Low slab plane `1e-3` of the inflated AABB (lines 303-304). -/
def slabLo : ℚ := 1/1000

/-- Per-axis slab time of the low plane: `t1 = (1e-3 - origin) * invdir`. -/
def axT1 (o i : ℚ) : ℚ := (slabLo - o) * i

/-- Per-axis slab time of the high plane:
`t2 = (R - 1 - 1e-3 - origin) * invdir`. -/
def axT2 (R : ℕ) (o i : ℚ) : ℚ := ((R : ℚ) - 1 - slabLo - o) * i

/-- Ray entry time (line 305): `max` over axes of the per-axis `min(t1, t2)`,
clamped to `0`. -/
def tEnterD (g : SGrid) (r : RaySpec) : ℚ :=
  max 0 (max (max (min (axT1 r.o.x (invOf r).x) (axT2 g.rx r.o.x (invOf r).x))
                  (min (axT1 r.o.y (invOf r).y) (axT2 g.ry r.o.y (invOf r).y)))
             (min (axT1 r.o.z (invOf r).z) (axT2 g.rz r.o.z (invOf r).z)))

/-- Ray exit time (line 306): `min` over axes of the per-axis `max(t1, t2)`. -/
def tExitD (g : SGrid) (r : RaySpec) : ℚ :=
  min (min (max (axT1 r.o.x (invOf r).x) (axT2 g.rx r.o.x (invOf r).x))
           (max (axT1 r.o.y (invOf r).y) (axT2 g.ry r.o.y (invOf r).y)))
      (max (axT1 r.o.z (invOf r).z) (axT2 g.rz r.o.z (invOf r).z))

/-- One axis of `intersect_aabb_unit` (lines 276-287): `t1 = -cen * invdir`,
`t2 = t1 + invdir`, contribution `max(t1, t2)`. -/
def axUnitMax (f i : ℚ) : ℚ := max (-f * i) (-f * i + i)

/-- Exit time of the current unit voxel (`intersect_aabb_unit`): the `min`
over axes of `max(t1, t2)` for the fractional position `cen`. -/
def aabbUnitTmax (f inv : V3) : ℚ :=
  min (min (axUnitMax f.x inv.x) (axUnitMax f.y inv.y)) (axUnitMax f.z inv.z)

/-- Ray position at parameter `t`: `pos = origins + t * dirs` (line 323). -/
def rayPos (r : RaySpec) (t : ℚ) : V3 :=
  ⟨r.o.x + t * r.d.x, r.o.y + t * r.d.y, r.o.z + t * r.d.z⟩

/-- Voxel index at parameter `t`: `l = pos.to(torch.long)` (line 324),
truncation toward zero, with no clamping in the render loops. -/
def rayIdx (r : RaySpec) (t : ℚ) : ℤ × ℤ × ℤ :=
  ((truncZ (rayPos r t).x), (truncZ (rayPos r t).y), (truncZ (rayPos r t).z))

/-- Fractional in-voxel position `pos_t = pos - l` (line 325). -/
def rayFrac (r : RaySpec) (t : ℚ) : V3 :=
  ⟨(rayPos r t).x - (rayIdx r t).1,
   (rayPos r t).y - (rayIdx r t).2.1,
   (rayPos r t).z - (rayIdx r t).2.2⟩

/-- NN-mode step length `delta_t = subcube_tmax + step_epsilon` (lines
331-333). -/
def nnDelta (r : RaySpec) (eps t : ℚ) : ℚ :=
  aabbUnitTmax (rayFrac r t) (invOf r) + eps

/-- NN-mode raw opacity at parameter `t`: channel 0 of the single fetched
voxel row (lines 327-328, 334). -/
def nnSigma (g : SGrid) (r : RaySpec) (t : ℚ) : ℚ :=
  cornerRow g (rayIdx r t).1 (rayIdx r t).2.1 (rayIdx r t).2.2 0

/-- NN-mode SH dot product for color channel `ch`: the reshape of channels
`1..3B` to `(3, B)` row-major and the contraction with `sh_mult`
(lines 337-340). -/
def nnShDot (g : SGrid) (r : RaySpec) (t : ℚ) (ch : ℕ) : ℚ :=
  ∑ k ∈ Finset.range g.basisDim,
    r.sh k * cornerRow g (rayIdx r t).1 (rayIdx r t).2.1 (rayIdx r t).2.2 (1 + ch * g.basisDim + k)

/-- NN-mode log-attenuation of one step:
`log_att = -delta_t * relu(sigma) * delta_scale` (line 334). -/
def nnLogAtt (g : SGrid) (r : RaySpec) (eps t : ℚ) : ℚ :=
  -nnDelta r eps t * max (nnSigma g r t) 0 * r.ds

/-- The `t` value of one ray after `n` iterations of the NN while loop
(lines 322-354): starting from the clamped entry time, each iteration with
`t < tmax` advances by `delta_t`; a pruned ray (`t ≥ tmax`) no longer moves. -/
def nnT (g : SGrid) (r : RaySpec) (o : RenderOptions) : ℕ → ℚ
  | 0 => tEnterD g r
  | n + 1 =>
      if nnT g r o n < tExitD g r
      then nnT g r o n + nnDelta r o.step_epsilon (nnT g r o n)
      else nnT g r o n

/-- The `log_light_intensity` of one ray after `n` NN iterations (line 344);
rational, since each `log_att` is rational. -/
def nnLogT (g : SGrid) (r : RaySpec) (o : RenderOptions) : ℕ → ℚ
  | 0 => 0
  | n + 1 =>
      if nnT g r o n < tExitD g r
      then nnLogT g r o n + nnLogAtt g r o.step_epsilon (nnT g r o n)
      else nnLogT g r o n

/-- The logistic sigmoid used for the SH color (`torch.sigmoid`, line 340). -/
noncomputable def sigmoidR (x : ℝ) : ℝ := 1 / (1 + Real.exp (-x))

/-- Accumulated `out_rgb` channel `ch` of one ray after `n` NN iterations
(lines 335-343): each active step adds
`exp(log_T) * (1 - exp(log_att)) * sigmoid(sh ⬝ coeffs)`. -/
noncomputable def nnRGBc (g : SGrid) (r : RaySpec) (o : RenderOptions) (ch : ℕ) : ℕ → ℝ
  | 0 => 0
  | n + 1 =>
      if nnT g r o n < tExitD g r
      then nnRGBc g r o ch n +
        Real.exp (nnLogT g r o n) * (1 - Real.exp (nnLogAtt g r o.step_epsilon (nnT g r o n))) *
          sigmoidR (nnShDot g r (nnT g r o n) ch)
      else nnRGBc g r o ch n

/-- Final NN output channel after `n` iterations: the accumulated color plus
the background term `exp(log_light_intensity) * background_brightness`
(lines 355-357). -/
noncomputable def nnOutc (g : SGrid) (r : RaySpec) (o : RenderOptions) (ch n : ℕ) : ℝ :=
  nnRGBc g r o ch n + Real.exp (nnLogT g r o n) * o.background_brightness

/-- Trilerp-mode payload channel at parameter `t`: the `CRAZY TRILERP` block
(lines 398-431), with unclamped corner `l = pos.to(torch.long)` and weights
`wa = 1 - pos_t`, `wb = pos_t`. -/
def lerpVal (g : SGrid) (r : RaySpec) (t : ℚ) (c : ℕ) : ℚ :=
  let l := rayIdx r t
  let f := rayFrac r t
  let c00 := cornerRow g l.1 l.2.1 l.2.2 c * (1 - f.z) + cornerRow g l.1 l.2.1 (l.2.2 + 1) c * f.z
  let c01 := cornerRow g l.1 (l.2.1 + 1) l.2.2 c * (1 - f.z) + cornerRow g l.1 (l.2.1 + 1) (l.2.2 + 1) c * f.z
  let c10 := cornerRow g (l.1 + 1) l.2.1 l.2.2 c * (1 - f.z) + cornerRow g (l.1 + 1) l.2.1 (l.2.2 + 1) c * f.z
  let c11 := cornerRow g (l.1 + 1) (l.2.1 + 1) l.2.2 c * (1 - f.z) + cornerRow g (l.1 + 1) (l.2.1 + 1) (l.2.2 + 1) c * f.z
  (c00 * (1 - f.y) + c01 * f.y) * (1 - f.x) + (c10 * (1 - f.y) + c11 * f.y) * f.x

/-- Trilerp-mode raw opacity at `t` (channel 0 of the trilerp). -/
def lerpSigma (g : SGrid) (r : RaySpec) (t : ℚ) : ℚ := lerpVal g r t 0

/-- Trilerp-mode SH dot product for color channel `ch` (lines 436-439). -/
def lerpShDot (g : SGrid) (r : RaySpec) (t : ℚ) (ch : ℕ) : ℚ :=
  ∑ k ∈ Finset.range g.basisDim, r.sh k * lerpVal g r t (1 + ch * g.basisDim + k)

/-- Trilerp-mode log-attenuation:
`log_att = -step_size * relu(sigma) * delta_scale` (line 433). -/
def lerpLogAtt (g : SGrid) (r : RaySpec) (stepSz t : ℚ) : ℚ :=
  -stepSz * max (lerpSigma g r t) 0 * r.ds

/-- The `t` value of one ray after `n` iterations of the trilerp while loop
(lines 396-453): each active iteration advances by the constant `step_size`
(line 444). -/
def lerpT (g : SGrid) (r : RaySpec) (o : RenderOptions) : ℕ → ℚ
  | 0 => tEnterD g r
  | n + 1 =>
      if lerpT g r o n < tExitD g r
      then lerpT g r o n + o.step_size
      else lerpT g r o n

/-- The `log_light_intensity` of one ray after `n` trilerp iterations. -/
def lerpLogT (g : SGrid) (r : RaySpec) (o : RenderOptions) : ℕ → ℚ
  | 0 => 0
  | n + 1 =>
      if lerpT g r o n < tExitD g r
      then lerpLogT g r o n + lerpLogAtt g r o.step_size (lerpT g r o n)
      else lerpLogT g r o n

/-- Accumulated `out_rgb` channel `ch` of one ray after `n` trilerp
iterations (lines 433-442). -/
noncomputable def lerpRGBc (g : SGrid) (r : RaySpec) (o : RenderOptions) (ch : ℕ) : ℕ → ℝ
  | 0 => 0
  | n + 1 =>
      if lerpT g r o n < tExitD g r
      then lerpRGBc g r o ch n +
        Real.exp (lerpLogT g r o n) * (1 - Real.exp (lerpLogAtt g r o.step_size (lerpT g r o n))) *
          sigmoidR (lerpShDot g r (lerpT g r o n) ch)
      else lerpRGBc g r o ch n

/-- Final trilerp output channel after `n` iterations, background included
(lines 454-456). -/
noncomputable def lerpOutc (g : SGrid) (r : RaySpec) (o : RenderOptions) (ch n : ℕ) : ℝ :=
  lerpRGBc g r o ch n + Real.exp (lerpLogT g r o n) * o.background_brightness

/-- The fractional part left by truncation toward zero never exceeds 1. -/
theorem sub_truncZ_le_one (q : ℚ) : q - truncZ q ≤ 1 := by
  unfold truncZ
  by_cases h : q < 0
  · simp only [if_pos h]
    have := Int.le_ceil q
    linarith
  · simp only [if_neg h]
    have := Int.lt_floor_add_one q
    push_cast at this ⊢
    linarith

/-- One axis of the sub-voxel exit time is nonnegative whenever the
reciprocal direction is nonnegative (the fraction is always `≤ 1`). -/
theorem axUnitMax_nonneg_of_inv_nonneg {f i : ℚ} (hf : f ≤ 1) (hi : 0 ≤ i) :
    0 ≤ axUnitMax f i := by
  have h2 : 0 ≤ -f * i + i := by nlinarith
  exact le_trans h2 (le_max_right _ _)

/-- One axis of the sub-voxel exit time is nonnegative whenever the
fraction lies in `[0, 1]`, for any reciprocal direction. -/
theorem axUnitMax_nonneg_of_frac {f i : ℚ} (hf0 : 0 ≤ f) (hf1 : f ≤ 1) :
    0 ≤ axUnitMax f i := by
  rcases le_or_lt 0 i with hi | hi
  · exact axUnitMax_nonneg_of_inv_nonneg hf1 hi
  · have h1 : 0 ≤ -f * i := by nlinarith
    exact le_trans h1 (le_max_left _ _)

/-- All components of the in-voxel fraction are at most 1. -/
theorem rayFrac_le_one (r : RaySpec) (t : ℚ) :
    (rayFrac r t).x ≤ 1 ∧ (rayFrac r t).y ≤ 1 ∧ (rayFrac r t).z ≤ 1 :=
  ⟨sub_truncZ_le_one _, sub_truncZ_le_one _, sub_truncZ_le_one _⟩

/-- With all reciprocal direction components nonnegative, the sub-voxel exit
time is nonnegative at every in-voxel fraction. -/
theorem aabbUnitTmax_nonneg_of_inv_nonneg (r : RaySpec) (t : ℚ)
    (hx : 0 ≤ (invOf r).x) (hy : 0 ≤ (invOf r).y) (hz : 0 ≤ (invOf r).z) :
    0 ≤ aabbUnitTmax (rayFrac r t) (invOf r) := by
  obtain ⟨h1, h2, h3⟩ := rayFrac_le_one r t
  exact le_min (le_min (axUnitMax_nonneg_of_inv_nonneg h1 hx)
                       (axUnitMax_nonneg_of_inv_nonneg h2 hy))
               (axUnitMax_nonneg_of_inv_nonneg h3 hz)

/-- A sequence that gains at least `eps > 0` while below `tmax` eventually
reaches `tmax` (the shape of both render while loops). -/
theorem escape_of_min_gain (T : ℕ → ℚ) (tmax eps : ℚ) (heps : 0 < eps)
    (hstep : ∀ n, T n < tmax → T n + eps ≤ T (n + 1)) : ∃ n, ¬ T n < tmax := by
  by_contra hc
  push_neg at hc
  have key : ∀ n : ℕ, T 0 + n * eps ≤ T n := by
    intro n
    induction n with
    | zero => simp
    | succ k ih =>
        have h1 := hstep k (hc k)
        push_cast
        nlinarith
  obtain ⟨n, hn⟩ := exists_nat_gt ((tmax - T 0) / eps)
  have h2 : tmax - T 0 < (n : ℚ) * eps := by
    have := (div_lt_iff₀ heps).mp hn
    linarith
  have h3 := key n
  have h4 := hc n
  linarith

/-- Claim C6: the render traversal terminates.  (a) `subcube_tmax` is
nonnegative at any in-box fraction (`f ∈ [0,1]³`), so each NN step advances
`t` by `delta_t = subcube_tmax + step_epsilon ≥ step_epsilon`; (b) in NN mode,
with `step_epsilon > 0` and nonnegative sub-voxel exits along the way, some
iteration reaches `t ≥ tmax`, after which the ray is pruned; (c) in trilerp
mode every active iteration advances `t` by `step_size > 0`, and likewise the
ray is eventually pruned. -/
theorem C6_render_loop_terminates :
    (∀ f inv : V3, 0 ≤ f.x → f.x ≤ 1 → 0 ≤ f.y → f.y ≤ 1 → 0 ≤ f.z → f.z ≤ 1 →
      0 ≤ aabbUnitTmax f inv) ∧
    (∀ (g : SGrid) (r : RaySpec) (o : RenderOptions), 0 < o.step_epsilon →
      (∀ n, nnT g r o n < tExitD g r →
        0 ≤ aabbUnitTmax (rayFrac r (nnT g r o n)) (invOf r)) →
      ∃ n, ¬ nnT g r o n < tExitD g r) ∧
    (∀ (g : SGrid) (r : RaySpec) (o : RenderOptions), 0 < o.step_size →
      ∃ n, ¬ lerpT g r o n < tExitD g r) := by
  refine ⟨?_, ?_, ?_⟩
  · intro f inv hx0 hx1 hy0 hy1 hz0 hz1
    exact le_min (le_min (axUnitMax_nonneg_of_frac hx0 hx1)
                         (axUnitMax_nonneg_of_frac hy0 hy1))
                 (axUnitMax_nonneg_of_frac hz0 hz1)
  · intro g r o heps hsub
    refine escape_of_min_gain (nnT g r o) (tExitD g r) o.step_epsilon heps ?_
    intro n hn
    have h1 := hsub n hn
    simp only [nnT, if_pos hn, nnDelta]
    linarith
  · intro g r o hstep
    refine escape_of_min_gain (lerpT g r o) (tExitD g r) o.step_size hstep ?_
    intro n hn
    simp only [lerpT, if_pos hn]
    exact le_refl _

/-- Concrete grid for witnesses: `R = (4,4,4)`, every lattice site linked to
payload row 0, payload row with `σ = 1` and zero SH coefficients. -/
def gEx : SGrid :=
  ⟨4, 4, 4, fun _ _ _ => 0, fun _ c => if c = 0 then 1 else 0, 1, ⟨1, 1, 1⟩, ⟨0, 0, 0⟩⟩

/-- Concrete grid for witnesses: same box but every link is `-1` (empty). -/
def gEmpty : SGrid :=
  ⟨4, 4, 4, fun _ _ _ => -1, fun _ _ => 0, 1, ⟨1, 1, 1⟩, ⟨0, 0, 0⟩⟩

/-- Concrete ray for witnesses: grid origin `(3/2, 3/2, 3/2)` inside the box,
grid direction `(0,0,1)` (already unit), `delta_scale = 1`, zero SH values. -/
def rEx : RaySpec := ⟨⟨3/2, 3/2, 3/2⟩, ⟨0, 0, 1⟩, 1, fun _ => 0⟩

/-- Concrete ray that misses the box: origin `(-5, 3/2, 3/2)` with direction
`(0,0,1)` pointing along z far outside the x-slab. -/
def rMiss : RaySpec := ⟨⟨-5, 3/2, 3/2⟩, ⟨0, 0, 1⟩, 1, fun _ => 0⟩

/-- Concrete options for witnesses: NN mode, black background,
`step_epsilon = 1e-3`, `step_size = 1/2`, `sigma_thresh = 2`,
`stop_thresh = 1`. -/
def oEx : RenderOptions := ⟨false, 0, 1/1000, 1/2, 2, 1⟩

/-- Concrete options with background brightness `1/4` and default-like
thresholds. -/
def oBg : RenderOptions := ⟨false, 1/4, 1/1000, 1/2, 1/10000000000, 1/10000000⟩

/-- Witness for C6 at the concrete grid/ray/options: both loops terminate
(all reciprocal direction components are nonnegative here, so every
sub-voxel exit is nonnegative). -/
theorem C6_render_loop_terminates_witness :
    ((0 : ℚ) < oEx.step_epsilon ∧ 0 < oEx.step_size) ∧
    ((0:ℚ) ≤ 1/2 ∧ (1/2:ℚ) ≤ 1 ∧ 0 ≤ aabbUnitTmax ⟨1/2, 1/2, 1/2⟩ ⟨1, 1, 1⟩) ∧
    (∃ n, ¬ nnT gEx rEx oEx n < tExitD gEx rEx) ∧
    (∃ n, ¬ lerpT gEx rEx oEx n < tExitD gEx rEx) := by
  have heps : (0 : ℚ) < oEx.step_epsilon := by norm_num [oEx]
  have hss : (0 : ℚ) < oEx.step_size := by norm_num [oEx]
  have hix : 0 ≤ (invOf rEx).x := by norm_num [invOf, sentInv, rEx]
  have hiy : 0 ≤ (invOf rEx).y := by norm_num [invOf, sentInv, rEx]
  have hiz : 0 ≤ (invOf rEx).z := by norm_num [invOf, sentInv, rEx]
  refine ⟨⟨heps, hss⟩,
    ⟨by norm_num, by norm_num,
      C6_render_loop_terminates.1 ⟨1/2, 1/2, 1/2⟩ ⟨1, 1, 1⟩
        (by norm_num) (by norm_num) (by norm_num) (by norm_num) (by norm_num) (by norm_num)⟩,
    C6_render_loop_terminates.2.1 gEx rEx oEx heps
      (fun n _ => aabbUnitTmax_nonneg_of_inv_nonneg rEx _ hix hiy hiz),
    C6_render_loop_terminates.2.2 gEx rEx oEx hss⟩

/-- If a ray never enters the box (`t_enter ≥ t_exit`), its NN loop state is
frozen at the initial `t`. -/
theorem nnT_frozen (g : SGrid) (r : RaySpec) (o : RenderOptions)
    (h : ¬ tEnterD g r < tExitD g r) : ∀ n, nnT g r o n = tEnterD g r := by
  intro n
  induction n with
  | zero => rfl
  | succ k ih =>
      unfold nnT
      rw [ih]
      simp [if_neg h]

/-- If a ray never enters the box, its trilerp loop state is frozen. -/
theorem lerpT_frozen (g : SGrid) (r : RaySpec) (o : RenderOptions)
    (h : ¬ tEnterD g r < tExitD g r) : ∀ n, lerpT g r o n = tEnterD g r := by
  intro n
  induction n with
  | zero => rfl
  | succ k ih =>
      unfold lerpT
      rw [ih]
      simp [if_neg h]

/-- If every active NN step has zero log-attenuation, the accumulated light
log stays 0 and the accumulated color stays 0. -/
theorem nn_zero_att_state (g : SGrid) (r : RaySpec) (o : RenderOptions) (ch : ℕ)
    (h : ∀ n, nnT g r o n < tExitD g r → nnLogAtt g r o.step_epsilon (nnT g r o n) = 0) :
    ∀ n, nnLogT g r o n = 0 ∧ nnRGBc g r o ch n = 0 := by
  intro n
  induction n with
  | zero => exact ⟨rfl, rfl⟩
  | succ k ih =>
      by_cases hk : nnT g r o k < tExitD g r
      · constructor
        · unfold nnLogT
          rw [if_pos hk, ih.1, h k hk, add_zero]
        · unfold nnRGBc
          rw [if_pos hk, ih.2, h k hk]
          push_cast
          rw [Real.exp_zero]
          ring
      · exact ⟨by unfold nnLogT; rw [if_neg hk]; exact ih.1,
               by unfold nnRGBc; rw [if_neg hk]; exact ih.2⟩

/-- If every active trilerp step has zero log-attenuation, the accumulated
light log stays 0 and the accumulated color stays 0. -/
theorem lerp_zero_att_state (g : SGrid) (r : RaySpec) (o : RenderOptions) (ch : ℕ)
    (h : ∀ n, lerpT g r o n < tExitD g r → lerpLogAtt g r o.step_size (lerpT g r o n) = 0) :
    ∀ n, lerpLogT g r o n = 0 ∧ lerpRGBc g r o ch n = 0 := by
  intro n
  induction n with
  | zero => exact ⟨rfl, rfl⟩
  | succ k ih =>
      by_cases hk : lerpT g r o k < tExitD g r
      · constructor
        · unfold lerpLogT
          rw [if_pos hk, ih.1, h k hk, add_zero]
        · unfold lerpRGBc
          rw [if_pos hk, ih.2, h k hk]
          push_cast
          rw [Real.exp_zero]
          ring
      · exact ⟨by unfold lerpLogT; rw [if_neg hk]; exact ih.1,
               by unfold lerpRGBc; rw [if_neg hk]; exact ih.2⟩

/-- Claim C7: (a) when the effective opacity is nonpositive at every
position (in particular every link `-1`, or every payload σ ≤ 0), the NN
renderer outputs exactly the background brightness on every channel at every
iteration count; (b) the same for the trilerp renderer; (c) a ray whose slab
test gives `t_enter ≥ t_exit` outputs exactly the background brightness in
both modes regardless of grid contents. -/
theorem C7_zero_sigma_gives_background :
    (∀ (g : SGrid) (r : RaySpec) (o : RenderOptions) (ch n : ℕ),
      (∀ t, nnSigma g r t ≤ 0) →
      nnOutc g r o ch n = (o.background_brightness : ℝ)) ∧
    (∀ (g : SGrid) (r : RaySpec) (o : RenderOptions) (ch n : ℕ),
      (∀ t, lerpSigma g r t ≤ 0) →
      lerpOutc g r o ch n = (o.background_brightness : ℝ)) ∧
    (∀ (g : SGrid) (r : RaySpec) (o : RenderOptions) (ch n : ℕ),
      ¬ tEnterD g r < tExitD g r →
      nnOutc g r o ch n = (o.background_brightness : ℝ) ∧
      lerpOutc g r o ch n = (o.background_brightness : ℝ)) := by
  refine ⟨?_, ?_, ?_⟩
  · intro g r o ch n hσ
    have h := nn_zero_att_state g r o ch (fun m _ => by
      unfold nnLogAtt
      rw [max_eq_right (hσ _)]
      ring) n
    unfold nnOutc
    rw [h.1, h.2]
    push_cast
    rw [Real.exp_zero]
    ring
  · intro g r o ch n hσ
    have h := lerp_zero_att_state g r o ch (fun m _ => by
      unfold lerpLogAtt
      rw [max_eq_right (hσ _)]
      ring) n
    unfold lerpOutc
    rw [h.1, h.2]
    push_cast
    rw [Real.exp_zero]
    ring
  · intro g r o ch n hmiss
    have hnn := nn_zero_att_state g r o ch (fun m hm => by
      rw [nnT_frozen g r o hmiss m] at hm
      exact absurd hm hmiss) n
    have hl := lerp_zero_att_state g r o ch (fun m hm => by
      rw [lerpT_frozen g r o hmiss m] at hm
      exact absurd hm hmiss) n
    constructor
    · unfold nnOutc
      rw [hnn.1, hnn.2]
      push_cast
      rw [Real.exp_zero]
      ring
    · unfold lerpOutc
      rw [hl.1, hl.2]
      push_cast
      rw [Real.exp_zero]
      ring

/-- Witness for C7: an all-empty grid (every link `-1`) with background
`1/4` renders `(1/4, 1/4, 1/4)` in both modes, and a concrete ray that
misses the box gets the background as well. -/
theorem C7_zero_sigma_gives_background_witness :
    (∀ t, nnSigma gEmpty rEx t ≤ 0) ∧
    (∀ t, lerpSigma gEmpty rEx t ≤ 0) ∧
    (¬ tEnterD gEx rMiss < tExitD gEx rMiss) ∧
    nnOutc gEmpty rEx oBg 0 3 = ((1/4 : ℚ) : ℝ) ∧
    lerpOutc gEmpty rEx oBg 1 3 = ((1/4 : ℚ) : ℝ) ∧
    nnOutc gEx rMiss oBg 2 3 = ((1/4 : ℚ) : ℝ) := by
  have hσ : ∀ t, nnSigma gEmpty rEx t ≤ 0 := by
    intro t
    simp [nnSigma, cornerRow, fetchRow, gEmpty]
  have hσ2 : ∀ t, lerpSigma gEmpty rEx t ≤ 0 := by
    intro t
    simp [lerpSigma, lerpVal, cornerRow, fetchRow, gEmpty]
  have hmiss : ¬ tEnterD gEx rMiss < tExitD gEx rMiss := by
    norm_num [tEnterD, tExitD, axT1, axT2, invOf, sentInv, slabLo, gEx, rMiss, min_def, max_def]
  refine ⟨hσ, hσ2, hmiss, ?_, ?_, ?_⟩
  · have := C7_zero_sigma_gives_background.1 gEmpty rEx oBg 0 3 hσ
    simpa [oBg] using this
  · have := C7_zero_sigma_gives_background.2.1 gEmpty rEx oBg 1 3 hσ2
    simpa [oBg] using this
  · have := (C7_zero_sigma_gives_background.2.2 gEx rMiss oBg 2 3 hmiss).1
    simpa [oBg] using this

/-- The sigmoid output is positive. -/
theorem sigmoidR_pos (x : ℝ) : 0 < sigmoidR x := by
  unfold sigmoidR
  positivity

/-- The sigmoid output is at most one. -/
theorem sigmoidR_le_one (x : ℝ) : sigmoidR x ≤ 1 := by
  unfold sigmoidR
  rw [div_le_one (by positivity)]
  have := Real.exp_pos (-x)
  linarith

/-- One render accumulation step keeps the color channel in
`[0, 1 - exp log_T]`: adding `exp L * (1 - exp a) * c` with `a ≤ 0` and
`c ∈ [0,1]` to a channel bounded by `1 - exp L` yields one bounded by
`1 - exp (L + a)`. -/
theorem accumStep (L a c rgb : ℝ) (ha : a ≤ 0) (hc0 : 0 ≤ c) (hc1 : c ≤ 1)
    (h0 : 0 ≤ rgb) (h1 : rgb ≤ 1 - Real.exp L) :
    0 ≤ rgb + Real.exp L * (1 - Real.exp a) * c ∧
    rgb + Real.exp L * (1 - Real.exp a) * c ≤ 1 - Real.exp (L + a) := by
  have hea : Real.exp a ≤ 1 := by
    calc Real.exp a ≤ Real.exp 0 := Real.exp_le_exp.mpr ha
    _ = 1 := Real.exp_zero
  have heL : 0 < Real.exp L := Real.exp_pos L
  have hw : 0 ≤ Real.exp L * (1 - Real.exp a) := by nlinarith
  constructor
  · nlinarith
  · rw [Real.exp_add]
    nlinarith

/-- Unfolding equation for one NN `log_T` step. -/
theorem nnLogT_succ (g : SGrid) (r : RaySpec) (o : RenderOptions) (n : ℕ) :
    nnLogT g r o (n + 1) =
      if nnT g r o n < tExitD g r
      then nnLogT g r o n + nnLogAtt g r o.step_epsilon (nnT g r o n)
      else nnLogT g r o n := rfl

/-- Unfolding equation for one NN color step. -/
theorem nnRGBc_succ (g : SGrid) (r : RaySpec) (o : RenderOptions) (ch n : ℕ) :
    nnRGBc g r o ch (n + 1) =
      if nnT g r o n < tExitD g r
      then nnRGBc g r o ch n +
        Real.exp (nnLogT g r o n) * (1 - Real.exp (nnLogAtt g r o.step_epsilon (nnT g r o n))) *
          sigmoidR (nnShDot g r (nnT g r o n) ch)
      else nnRGBc g r o ch n := rfl

/-- Unfolding equation for one trilerp `log_T` step. -/
theorem lerpLogT_succ (g : SGrid) (r : RaySpec) (o : RenderOptions) (n : ℕ) :
    lerpLogT g r o (n + 1) =
      if lerpT g r o n < tExitD g r
      then lerpLogT g r o n + lerpLogAtt g r o.step_size (lerpT g r o n)
      else lerpLogT g r o n := rfl

/-- Unfolding equation for one trilerp color step. -/
theorem lerpRGBc_succ (g : SGrid) (r : RaySpec) (o : RenderOptions) (ch n : ℕ) :
    lerpRGBc g r o ch (n + 1) =
      if lerpT g r o n < tExitD g r
      then lerpRGBc g r o ch n +
        Real.exp (lerpLogT g r o n) * (1 - Real.exp (lerpLogAtt g r o.step_size (lerpT g r o n))) *
          sigmoidR (lerpShDot g r (lerpT g r o n) ch)
      else lerpRGBc g r o ch n := rfl

/-- Invariant of the NN loop: the light log stays nonpositive and each color
channel stays in `[0, 1 - exp log_T]`, given nonnegative `delta_scale` and
nonnegative step lengths (which the setup guarantees: `delta_scale` is a
reciprocal norm and the sub-voxel exits are nonnegative in the box). -/
theorem nn_state_bounds (g : SGrid) (r : RaySpec) (o : RenderOptions) (ch : ℕ)
    (hds : 0 ≤ r.ds)
    (hdelta : ∀ n, nnT g r o n < tExitD g r → 0 ≤ nnDelta r o.step_epsilon (nnT g r o n)) :
    ∀ n, nnLogT g r o n ≤ 0 ∧ 0 ≤ nnRGBc g r o ch n ∧
      nnRGBc g r o ch n ≤ 1 - Real.exp (nnLogT g r o n) := by
  intro n
  induction n with
  | zero =>
      refine ⟨le_refl 0, le_refl 0, ?_⟩
      show (0 : ℝ) ≤ 1 - Real.exp ((0 : ℚ) : ℝ)
      push_cast
      rw [Real.exp_zero]
      norm_num
  | succ k ih =>
      by_cases hk : nnT g r o k < tExitD g r
      · have ha : nnLogAtt g r o.step_epsilon (nnT g r o k) ≤ 0 := by
          unfold nnLogAtt
          have h1 := hdelta k hk
          have h2 : 0 ≤ max (nnSigma g r (nnT g r o k)) 0 := le_max_right _ _
          nlinarith [mul_nonneg (mul_nonneg h1 h2) hds]
        have haR : ((nnLogAtt g r o.step_epsilon (nnT g r o k) : ℚ) : ℝ) ≤ 0 := by
          exact_mod_cast ha
        have step := accumStep (nnLogT g r o k) (nnLogAtt g r o.step_epsilon (nnT g r o k))
          (sigmoidR (nnShDot g r (nnT g r o k) ch)) (nnRGBc g r o ch k) haR
          (le_of_lt (sigmoidR_pos _)) (sigmoidR_le_one _) ih.2.1 ih.2.2
        refine ⟨?_, ?_, ?_⟩
        · show nnLogT g r o (k + 1) ≤ 0
          unfold nnLogT
          rw [if_pos hk]
          linarith [ih.1, ha]
        · show (0:ℝ) ≤ nnRGBc g r o ch (k+1)
          unfold nnRGBc
          rw [if_pos hk]
          exact step.1
        · show nnRGBc g r o ch (k+1) ≤ 1 - Real.exp (nnLogT g r o (k+1))
          rw [nnRGBc_succ, nnLogT_succ, if_pos hk, if_pos hk]
          push_cast
          push_cast at step
          exact step.2
      · refine ⟨?_, ?_, ?_⟩
        · unfold nnLogT; rw [if_neg hk]; exact ih.1
        · unfold nnRGBc; rw [if_neg hk]; exact ih.2.1
        · unfold nnRGBc nnLogT; rw [if_neg hk, if_neg hk]; exact ih.2.2

/-- Invariant of the trilerp loop, as for `nn_state_bounds` with the
constant step `step_size ≥ 0`. -/
theorem lerp_state_bounds (g : SGrid) (r : RaySpec) (o : RenderOptions) (ch : ℕ)
    (hds : 0 ≤ r.ds) (hss : 0 ≤ o.step_size) :
    ∀ n, lerpLogT g r o n ≤ 0 ∧ 0 ≤ lerpRGBc g r o ch n ∧
      lerpRGBc g r o ch n ≤ 1 - Real.exp (lerpLogT g r o n) := by
  intro n
  induction n with
  | zero =>
      refine ⟨le_refl 0, le_refl 0, ?_⟩
      show (0 : ℝ) ≤ 1 - Real.exp ((0 : ℚ) : ℝ)
      push_cast
      rw [Real.exp_zero]
      norm_num
  | succ k ih =>
      by_cases hk : lerpT g r o k < tExitD g r
      · have ha : lerpLogAtt g r o.step_size (lerpT g r o k) ≤ 0 := by
          unfold lerpLogAtt
          have h2 : 0 ≤ max (lerpSigma g r (lerpT g r o k)) 0 := le_max_right _ _
          nlinarith [mul_nonneg (mul_nonneg hss h2) hds]
        have haR : ((lerpLogAtt g r o.step_size (lerpT g r o k) : ℚ) : ℝ) ≤ 0 := by
          exact_mod_cast ha
        have step := accumStep (lerpLogT g r o k) (lerpLogAtt g r o.step_size (lerpT g r o k))
          (sigmoidR (lerpShDot g r (lerpT g r o k) ch)) (lerpRGBc g r o ch k) haR
          (le_of_lt (sigmoidR_pos _)) (sigmoidR_le_one _) ih.2.1 ih.2.2
        refine ⟨?_, ?_, ?_⟩
        · unfold lerpLogT
          rw [if_pos hk]
          linarith [ih.1, ha]
        · unfold lerpRGBc
          rw [if_pos hk]
          exact step.1
        · rw [lerpRGBc_succ, lerpLogT_succ, if_pos hk, if_pos hk]
          push_cast
          push_cast at step
          exact step.2
      · refine ⟨?_, ?_, ?_⟩
        · unfold lerpLogT; rw [if_neg hk]; exact ih.1
        · unfold lerpRGBc; rw [if_neg hk]; exact ih.2.1
        · unfold lerpRGBc lerpLogT; rw [if_neg hk, if_neg hk]; exact ih.2.2

/-- Claim C4: with `background_brightness ∈ [0,1]`, every channel of the
render output lies in `[0,1]` at every iteration count, in both modes.  The
remaining hypotheses state what the per-ray setup provides: `delta_scale`
is nonnegative (it is a reciprocal norm), every NN step length is
nonnegative (sub-voxel exit plus `step_epsilon`), and in trilerp mode
`step_size ≥ 0`.  The per-step weights `exp(log_T)(1 - exp(log_att))` are
nonnegative and their running sum stays below `1 - exp(log_T)`, so color
plus the background term `exp(log_T) · b` is at most 1. -/
theorem C4_render_output_in_unit_interval :
    (∀ (g : SGrid) (r : RaySpec) (o : RenderOptions) (ch n : ℕ),
      0 ≤ o.background_brightness → o.background_brightness ≤ 1 → 0 ≤ r.ds →
      (∀ m, nnT g r o m < tExitD g r → 0 ≤ nnDelta r o.step_epsilon (nnT g r o m)) →
      0 ≤ nnOutc g r o ch n ∧ nnOutc g r o ch n ≤ 1) ∧
    (∀ (g : SGrid) (r : RaySpec) (o : RenderOptions) (ch n : ℕ),
      0 ≤ o.background_brightness → o.background_brightness ≤ 1 → 0 ≤ r.ds →
      0 ≤ o.step_size →
      0 ≤ lerpOutc g r o ch n ∧ lerpOutc g r o ch n ≤ 1) := by
  constructor
  · intro g r o ch n hb0 hb1 hds hdelta
    obtain ⟨hL, hr0, hr1⟩ := nn_state_bounds g r o ch hds hdelta n
    have hbR0 : (0:ℝ) ≤ (o.background_brightness : ℝ) := by exact_mod_cast hb0
    have hbR1 : ((o.background_brightness : ℚ) : ℝ) ≤ 1 := by exact_mod_cast hb1
    have heL : 0 < Real.exp ((nnLogT g r o n : ℚ) : ℝ) := Real.exp_pos _
    unfold nnOutc
    constructor
    · have : 0 ≤ Real.exp ((nnLogT g r o n : ℚ) : ℝ) * (o.background_brightness : ℝ) := by
        positivity
      linarith
    · nlinarith
  · intro g r o ch n hb0 hb1 hds hss
    obtain ⟨hL, hr0, hr1⟩ := lerp_state_bounds g r o ch hds hss n
    have hbR0 : (0:ℝ) ≤ (o.background_brightness : ℝ) := by exact_mod_cast hb0
    have hbR1 : ((o.background_brightness : ℚ) : ℝ) ≤ 1 := by exact_mod_cast hb1
    have heL : 0 < Real.exp ((lerpLogT g r o n : ℚ) : ℝ) := Real.exp_pos _
    unfold lerpOutc
    constructor
    · have : 0 ≤ Real.exp ((lerpLogT g r o n : ℚ) : ℝ) * (o.background_brightness : ℝ) := by
        positivity
      linarith
    · nlinarith

/-- Witness for C4 at the concrete grid/ray/options (`b = 1/4`): the output
channel 0 after 2 iterations lies in `[0,1]` in both modes. -/
theorem C4_render_output_in_unit_interval_witness :
    ((0:ℚ) ≤ oBg.background_brightness ∧ oBg.background_brightness ≤ 1 ∧
      (0:ℚ) ≤ rEx.ds ∧ (0:ℚ) ≤ oBg.step_size) ∧
    (0 ≤ nnOutc gEx rEx oBg 0 2 ∧ nnOutc gEx rEx oBg 0 2 ≤ 1) ∧
    (0 ≤ lerpOutc gEx rEx oBg 0 2 ∧ lerpOutc gEx rEx oBg 0 2 ≤ 1) := by
  have hb0 : (0:ℚ) ≤ oBg.background_brightness := by norm_num [oBg]
  have hb1 : oBg.background_brightness ≤ 1 := by norm_num [oBg]
  have hds : (0:ℚ) ≤ rEx.ds := by norm_num [rEx]
  have hss : (0:ℚ) ≤ oBg.step_size := by norm_num [oBg]
  have hix : 0 ≤ (invOf rEx).x := by norm_num [invOf, sentInv, rEx]
  have hiy : 0 ≤ (invOf rEx).y := by norm_num [invOf, sentInv, rEx]
  have hiz : 0 ≤ (invOf rEx).z := by norm_num [invOf, sentInv, rEx]
  have heps : (0:ℚ) ≤ oBg.step_epsilon := by norm_num [oBg]
  refine ⟨⟨hb0, hb1, hds, hss⟩,
    C4_render_output_in_unit_interval.1 gEx rEx oBg 0 2 hb0 hb1 hds ?_,
    C4_render_output_in_unit_interval.2 gEx rEx oBg 0 2 hb0 hb1 hds hss⟩
  intro m _
  have := aabbUnitTmax_nonneg_of_inv_nonneg rEx (nnT gEx rEx oBg m) hix hiy hiz
  unfold nnDelta
  linarith

/-- Unfolding equation for one NN `t` step. -/
theorem nnT_succ (g : SGrid) (r : RaySpec) (o : RenderOptions) (n : ℕ) :
    nnT g r o (n + 1) =
      if nnT g r o n < tExitD g r
      then nnT g r o n + nnDelta r o.step_epsilon (nnT g r o n)
      else nnT g r o n := rfl

/-- Unfolding equation for one trilerp `t` step. -/
theorem lerpT_succ (g : SGrid) (r : RaySpec) (o : RenderOptions) (n : ℕ) :
    lerpT g r o (n + 1) =
      if lerpT g r o n < tExitD g r
      then lerpT g r o n + o.step_size
      else lerpT g r o n := rfl

/-- Counterexample to claim C1 as stated: at the concrete grid `gEx`, ray
`rEx` and options `oEx` (`sigma_thresh = 2`, `stop_thresh = 1`), the first
NN step has `σ = 1 < sigma_thresh` and remaining light
`exp(log_T) = 1 ≤ stop_thresh`, yet the ray is still active and the step's
integration contribution is added (the accumulated color after one
iteration is strictly positive): the pure NN path honors neither threshold. -/
theorem C1_thresholds_cex :
    nnSigma gEx rEx (nnT gEx rEx oEx 0) < oEx.sigma_thresh ∧
    Real.exp ((nnLogT gEx rEx oEx 0 : ℚ) : ℝ) ≤ ((oEx.stop_thresh : ℚ) : ℝ) ∧
    nnT gEx rEx oEx 0 < tExitD gEx rEx ∧
    0 < nnRGBc gEx rEx oEx 0 1 := by
  have hEnter : tEnterD gEx rEx = 0 := by
    norm_num [tEnterD, axT1, axT2, invOf, sentInv, slabLo, gEx, rEx, min_def, max_def]
  have hExit : tExitD gEx rEx = 1499/1000 := by
    norm_num [tExitD, axT1, axT2, invOf, sentInv, slabLo, gEx, rEx, min_def, max_def]
  have hT0 : nnT gEx rEx oEx 0 = 0 := by
    show tEnterD gEx rEx = 0
    exact hEnter
  have hact : nnT gEx rEx oEx 0 < tExitD gEx rEx := by
    rw [hT0, hExit]
    norm_num
  have hSig : nnSigma gEx rEx 0 = 1 := by
    norm_num [nnSigma, cornerRow, fetchRow, rayIdx, rayPos, truncZ, gEx, rEx]
  have hAtt : nnLogAtt gEx rEx oEx.step_epsilon 0 = -(501/1000) := by
    norm_num [nnLogAtt, nnDelta, aabbUnitTmax, axUnitMax, rayFrac, rayIdx, rayPos, truncZ,
      invOf, sentInv, nnSigma, cornerRow, fetchRow, gEx, rEx, oEx, min_def, max_def]
  have hSh : nnShDot gEx rEx 0 0 = 0 := by
    simp [nnShDot, gEx, rEx]
  refine ⟨?_, ?_, hact, ?_⟩
  · rw [hT0, hSig]
    norm_num [oEx]
  · have h0 : nnLogT gEx rEx oEx 0 = 0 := rfl
    rw [h0]
    push_cast
    rw [Real.exp_zero]
    norm_num [oEx]
  · rw [nnRGBc_succ, if_pos hact, hT0, hAtt, hSh]
    have e1 : nnRGBc gEx rEx oEx 0 0 = 0 := rfl
    have e2 : nnLogT gEx rEx oEx 0 = 0 := rfl
    rw [e1, e2]
    push_cast
    rw [Real.exp_zero]
    have h1 : Real.exp (-(501/1000) : ℝ) < 1 := by
      calc Real.exp (-(501/1000) : ℝ) < Real.exp 0 := Real.exp_lt_exp.mpr (by norm_num)
      _ = 1 := Real.exp_zero
    have h2 : 0 < sigmoidR 0 := sigmoidR_pos 0
    nlinarith

/-- Claim C1, amended: the pure NN renderer ignores `sigma_thresh` and
`stop_thresh` entirely (they are only forwarded to the CUDA kernel): its
whole per-ray state depends only on `step_epsilon` and
`background_brightness` among the options; a ray is frozen exactly when
`t ≥ t_exit`, and every active iteration integrates and advances `t` by
`delta_t` unconditionally. -/
theorem C1_amended_thresholds_ignored :
    (∀ (g : SGrid) (r : RaySpec) (o₁ o₂ : RenderOptions),
      o₁.step_epsilon = o₂.step_epsilon →
      o₁.background_brightness = o₂.background_brightness →
      ∀ n ch, nnT g r o₁ n = nnT g r o₂ n ∧ nnLogT g r o₁ n = nnLogT g r o₂ n ∧
        nnRGBc g r o₁ ch n = nnRGBc g r o₂ ch n ∧ nnOutc g r o₁ ch n = nnOutc g r o₂ ch n) ∧
    (∀ (g : SGrid) (r : RaySpec) (o : RenderOptions) (n : ℕ),
      ¬ nnT g r o n < tExitD g r →
      nnT g r o (n + 1) = nnT g r o n ∧ nnLogT g r o (n + 1) = nnLogT g r o n ∧
        ∀ ch, nnRGBc g r o ch (n + 1) = nnRGBc g r o ch n) ∧
    (∀ (g : SGrid) (r : RaySpec) (o : RenderOptions) (n : ℕ),
      nnT g r o n < tExitD g r →
      nnT g r o (n + 1) = nnT g r o n + nnDelta r o.step_epsilon (nnT g r o n)) := by
  refine ⟨?_, ?_, ?_⟩
  · intro g r o₁ o₂ heps hbg n ch
    have key : ∀ m, nnT g r o₁ m = nnT g r o₂ m ∧ nnLogT g r o₁ m = nnLogT g r o₂ m ∧
        ∀ c, nnRGBc g r o₁ c m = nnRGBc g r o₂ c m := by
      intro m
      induction m with
      | zero => exact ⟨rfl, rfl, fun _ => rfl⟩
      | succ k ih =>
          refine ⟨?_, ?_, ?_⟩
          · rw [nnT_succ, nnT_succ, ih.1, heps]
          · rw [nnLogT_succ, nnLogT_succ, ih.1, ih.2.1, heps]
          · intro c
            rw [nnRGBc_succ, nnRGBc_succ, ih.1, ih.2.1, ih.2.2 c, heps]
    refine ⟨(key n).1, (key n).2.1, (key n).2.2 ch, ?_⟩
    unfold nnOutc
    rw [(key n).2.1, (key n).2.2 ch, hbg]
  · intro g r o n h
    exact ⟨by rw [nnT_succ, if_neg h], by rw [nnLogT_succ, if_neg h],
      fun ch => by rw [nnRGBc_succ, if_neg h]⟩
  · intro g r o n h
    rw [nnT_succ, if_pos h]

/-- Options equal to `oEx` except for far larger thresholds. -/
def oEx2 : RenderOptions := ⟨false, 0, 1/1000, 1/2, 999, 999⟩

/-- Witness for the amended C1: changing only the two thresholds leaves the
concrete render state unchanged, and the concrete active first step advances
`t` by its `delta_t`. -/
theorem C1_amended_thresholds_ignored_witness :
    (oEx.step_epsilon = oEx2.step_epsilon ∧
     oEx.background_brightness = oEx2.background_brightness ∧
     nnT gEx rEx oEx 0 < tExitD gEx rEx) ∧
    nnOutc gEx rEx oEx 0 3 = nnOutc gEx rEx oEx2 0 3 ∧
    nnT gEx rEx oEx 1 = nnT gEx rEx oEx 0 + nnDelta rEx oEx.step_epsilon (nnT gEx rEx oEx 0) := by
  have heps : oEx.step_epsilon = oEx2.step_epsilon := by norm_num [oEx, oEx2]
  have hbg : oEx.background_brightness = oEx2.background_brightness := by norm_num [oEx, oEx2]
  have hact : nnT gEx rEx oEx 0 < tExitD gEx rEx := by
    have hEnter : tEnterD gEx rEx = 0 := by
      norm_num [tEnterD, axT1, axT2, invOf, sentInv, slabLo, gEx, rEx, min_def, max_def]
    have hExit : tExitD gEx rEx = 1499/1000 := by
      norm_num [tExitD, axT1, axT2, invOf, sentInv, slabLo, gEx, rEx, min_def, max_def]
    show tEnterD gEx rEx < tExitD gEx rEx
    rw [hEnter, hExit]
    norm_num
  exact ⟨⟨heps, hbg, hact⟩,
    (C1_amended_thresholds_ignored.1 gEx rEx oEx oEx2 heps hbg 3 0).2.2.2,
    C1_amended_thresholds_ignored.2.2 gEx rEx oEx 0 hact⟩

/-- The fractional part left by truncation toward zero is nonnegative for
nonnegative inputs. -/
theorem sub_truncZ_nonneg {q : ℚ} (h : 0 ≤ q) : 0 ≤ q - truncZ q := by
  rw [truncZ_of_nonneg h]
  have := Int.floor_le q
  linarith

/-- For a nonzero direction component, any `t` between the two slab crossing
times puts the ray coordinate between the two slab planes
`slabLo` and `R - 1 - slabLo`. -/
theorem axis_inbox (R : ℕ) (o d t : ℚ) (hd : d ≠ 0) (hR : 2 ≤ R)
    (h1 : min (axT1 o (sentInv d)) (axT2 R o (sentInv d)) ≤ t)
    (h2 : t ≤ max (axT1 o (sentInv d)) (axT2 R o (sentInv d))) :
    slabLo ≤ o + t * d ∧ o + t * d ≤ (R : ℚ) - 1 - slabLo := by
  have hRQ : (2 : ℚ) ≤ (R : ℚ) := by exact_mod_cast hR
  have hlohi : slabLo - o ≤ (R : ℚ) - 1 - slabLo - o := by
    simp only [slabLo]
    linarith
  rw [sentInv, if_neg hd] at h1 h2
  have hid : (1 / d) * d = 1 := one_div_mul_cancel hd
  have ht1 : axT1 o (1 / d) = (slabLo - o) * (1 / d) := rfl
  have ht2 : axT2 R o (1 / d) = ((R : ℚ) - 1 - slabLo - o) * (1 / d) := rfl
  rw [ht1, ht2] at h1 h2
  rcases lt_or_gt_of_ne hd with hneg | hpos
  · have hi : 1 / d < 0 := one_div_neg.mpr hneg
    have hmm : ((R : ℚ) - 1 - slabLo - o) * (1 / d) ≤ (slabLo - o) * (1 / d) :=
      mul_le_mul_of_nonpos_right hlohi hi.le
    rw [min_eq_right hmm] at h1
    rw [max_eq_left hmm] at h2
    have e1 : ((slabLo - o) * (1 / d)) * d = slabLo - o := by
      rw [mul_assoc, hid, mul_one]
    have e2 : (((R : ℚ) - 1 - slabLo - o) * (1 / d)) * d = (R : ℚ) - 1 - slabLo - o := by
      rw [mul_assoc, hid, mul_one]
    constructor
    · have := mul_le_mul_of_nonpos_right h2 hneg.le
      rw [e1] at this
      linarith
    · have := mul_le_mul_of_nonpos_right h1 hneg.le
      rw [e2] at this
      linarith
  · have hi : 0 < 1 / d := one_div_pos.mpr hpos
    have hmm : (slabLo - o) * (1 / d) ≤ ((R : ℚ) - 1 - slabLo - o) * (1 / d) :=
      mul_le_mul_of_nonneg_right hlohi hi.le
    rw [min_eq_left hmm] at h1
    rw [max_eq_right hmm] at h2
    have e1 : ((slabLo - o) * (1 / d)) * d = slabLo - o := by
      rw [mul_assoc, hid, mul_one]
    have e2 : (((R : ℚ) - 1 - slabLo - o) * (1 / d)) * d = (R : ℚ) - 1 - slabLo - o := by
      rw [mul_assoc, hid, mul_one]
    constructor
    · have := mul_le_mul_of_nonneg_right h1 hpos.le
      rw [e1] at this
      linarith
    · have := mul_le_mul_of_nonneg_right h2 hpos.le
      rw [e2] at this
      linarith

/-- Between the global entry and exit times, `t` lies between each axis's own
pair of crossing times. -/
theorem slab_axis_bounds (g : SGrid) (r : RaySpec) (t : ℚ)
    (h1 : tEnterD g r ≤ t) (h2 : t < tExitD g r) :
    (min (axT1 r.o.x (invOf r).x) (axT2 g.rx r.o.x (invOf r).x) ≤ t ∧
       t ≤ max (axT1 r.o.x (invOf r).x) (axT2 g.rx r.o.x (invOf r).x)) ∧
    (min (axT1 r.o.y (invOf r).y) (axT2 g.ry r.o.y (invOf r).y) ≤ t ∧
       t ≤ max (axT1 r.o.y (invOf r).y) (axT2 g.ry r.o.y (invOf r).y)) ∧
    (min (axT1 r.o.z (invOf r).z) (axT2 g.rz r.o.z (invOf r).z) ≤ t ∧
       t ≤ max (axT1 r.o.z (invOf r).z) (axT2 g.rz r.o.z (invOf r).z)) := by
  unfold tEnterD at h1
  unfold tExitD at h2
  refine ⟨⟨?_, ?_⟩, ⟨?_, ?_⟩, ⟨?_, ?_⟩⟩
  · exact le_trans (le_trans (le_trans (le_max_left _ _) (le_max_left _ _)) (le_max_right 0 _)) h1
  · exact le_of_lt (lt_of_lt_of_le h2 (le_trans (min_le_left _ _) (min_le_left _ _)))
  · exact le_trans (le_trans (le_trans (le_max_right _ _) (le_max_left _ _)) (le_max_right 0 _)) h1
  · exact le_of_lt (lt_of_lt_of_le h2 (le_trans (min_le_left _ _) (min_le_right _ _)))
  · exact le_trans (le_trans (le_max_right _ _) (le_max_right 0 _)) h1
  · exact le_of_lt (lt_of_lt_of_le h2 (min_le_right _ _))

/-- A coordinate inside the inflated slab has its truncated index in
`[0, R - 2]`. -/
theorem idx_range_of_inbox (R : ℕ) (p : ℚ)
    (h1 : slabLo ≤ p) (h2 : p ≤ (R : ℚ) - 1 - slabLo) :
    0 ≤ truncZ p ∧ truncZ p ≤ (R : ℤ) - 2 := by
  have hp0 : 0 ≤ p := le_trans (by norm_num [slabLo]) h1
  rw [truncZ_of_nonneg hp0]
  constructor
  · exact Int.floor_nonneg.mpr hp0
  · have hlt : p < ((R : ℤ) - 1 : ℤ) := by
      push_cast
      simp only [slabLo] at h2
      linarith
    have := Int.floor_lt.mpr hlt
    omega

/-- With all direction components nonzero and resolution at least 2 per
axis, any `t` between entry and exit yields truncated indices in
`[0, R_i - 2]` on every axis. -/
theorem idx_inrange_at (g : SGrid) (r : RaySpec) (t : ℚ)
    (hdx : r.d.x ≠ 0) (hdy : r.d.y ≠ 0) (hdz : r.d.z ≠ 0)
    (hRx : 2 ≤ g.rx) (hRy : 2 ≤ g.ry) (hRz : 2 ≤ g.rz)
    (h1 : tEnterD g r ≤ t) (h2 : t < tExitD g r) :
    (0 ≤ (rayIdx r t).1 ∧ (rayIdx r t).1 ≤ (g.rx : ℤ) - 2) ∧
    (0 ≤ (rayIdx r t).2.1 ∧ (rayIdx r t).2.1 ≤ (g.ry : ℤ) - 2) ∧
    (0 ≤ (rayIdx r t).2.2 ∧ (rayIdx r t).2.2 ≤ (g.rz : ℤ) - 2) := by
  obtain ⟨⟨hx1, hx2⟩, ⟨hy1, hy2⟩, ⟨hz1, hz2⟩⟩ := slab_axis_bounds g r t h1 h2
  have hx := axis_inbox g.rx r.o.x r.d.x t hdx hRx hx1 hx2
  have hy := axis_inbox g.ry r.o.y r.d.y t hdy hRy hy1 hy2
  have hz := axis_inbox g.rz r.o.z r.d.z t hdz hRz hz1 hz2
  exact ⟨idx_range_of_inbox g.rx _ hx.1 hx.2,
         idx_range_of_inbox g.ry _ hy.1 hy.2,
         idx_range_of_inbox g.rz _ hz.1 hz.2⟩

/-- In-box positions give nonnegative sub-voxel exit times (the fraction is
then componentwise in `[0, 1]`). -/
theorem subcube_nonneg_inbox (r : RaySpec) (t : ℚ)
    (hx : 0 ≤ (rayPos r t).x) (hy : 0 ≤ (rayPos r t).y) (hz : 0 ≤ (rayPos r t).z) :
    0 ≤ aabbUnitTmax (rayFrac r t) (invOf r) := by
  obtain ⟨h1, h2, h3⟩ := rayFrac_le_one r t
  exact le_min (le_min (axUnitMax_nonneg_of_frac (sub_truncZ_nonneg hx) h1)
                       (axUnitMax_nonneg_of_frac (sub_truncZ_nonneg hy) h2))
               (axUnitMax_nonneg_of_frac (sub_truncZ_nonneg hz) h3)

/-- Under the amended C9 hypotheses, the NN `t` sequence never drops below
the entry time: while the ray is active its position is in the box, so each
`delta_t` is nonnegative. -/
theorem nnT_ge_enter (g : SGrid) (r : RaySpec) (o : RenderOptions)
    (hdx : r.d.x ≠ 0) (hdy : r.d.y ≠ 0) (hdz : r.d.z ≠ 0)
    (hRx : 2 ≤ g.rx) (hRy : 2 ≤ g.ry) (hRz : 2 ≤ g.rz)
    (heps : 0 ≤ o.step_epsilon) :
    ∀ n, tEnterD g r ≤ nnT g r o n := by
  intro n
  induction n with
  | zero => exact le_refl _
  | succ k ih =>
      rw [nnT_succ]
      by_cases hk : nnT g r o k < tExitD g r
      · rw [if_pos hk]
        obtain ⟨⟨hx1, hx2⟩, ⟨hy1, hy2⟩, ⟨hz1, hz2⟩⟩ := slab_axis_bounds g r _ ih hk
        have hx := axis_inbox g.rx r.o.x r.d.x _ hdx hRx hx1 hx2
        have hy := axis_inbox g.ry r.o.y r.d.y _ hdy hRy hy1 hy2
        have hz := axis_inbox g.rz r.o.z r.d.z _ hdz hRz hz1 hz2
        have hlo : (0:ℚ) ≤ slabLo := by norm_num [slabLo]
        have hsub := subcube_nonneg_inbox r (nnT g r o k)
          (le_trans hlo hx.1) (le_trans hlo hy.1) (le_trans hlo hz.1)
        unfold nnDelta
        linarith
      · rw [if_neg hk]
        exact ih

/-- The trilerp `t` sequence never drops below the entry time when
`step_size ≥ 0`. -/
theorem lerpT_ge_enter (g : SGrid) (r : RaySpec) (o : RenderOptions)
    (hss : 0 ≤ o.step_size) :
    ∀ n, tEnterD g r ≤ lerpT g r o n := by
  intro n
  induction n with
  | zero => exact le_refl _
  | succ k ih =>
      rw [lerpT_succ]
      by_cases hk : lerpT g r o k < tExitD g r
      · rw [if_pos hk]
        linarith
      · rw [if_neg hk]
        exact ih

/-- Ray with a zero direction component whose origin is outside the box on
that axis: the `1e9` sentinel makes the x-axis slab times finite, and a
far-away origin on y pushes the y-crossing times past them, so the slab test
passes even though `pos.x = -3/2` at every step. -/
def rCx : RaySpec := ⟨⟨-3/2, -1600000000, 1⟩, ⟨0, 1, 0⟩, 1, fun _ => 0⟩

/-- Counterexample to claim C9 as stated: for the concrete ray `rCx` the
slab test passes (`t_enter < t_exit`, the ray is active at its first
iteration), yet the x-index read by the NN loop at that iteration is
negative — the unclamped `links` lookup would receive a negative (wrapping)
index.  The claimed guarantee fails when a direction component is exactly
zero, because the `1e9` sentinel only imitates an infinite slab time. -/
theorem C9_inbounds_cex :
    nnT gEx rCx oEx 0 < tExitD gEx rCx ∧
    (rayIdx rCx (nnT gEx rCx oEx 0)).1 < 0 := by
  have hEnter : tEnterD gEx rCx = 1600000000 + 1/1000 := by
    norm_num [tEnterD, axT1, axT2, invOf, sentInv, slabLo, gEx, rCx, min_def, max_def]
  have hExit : tExitD gEx rCx = 1600000000 + 2999/1000 := by
    norm_num [tExitD, axT1, axT2, invOf, sentInv, slabLo, gEx, rCx, min_def, max_def]
  constructor
  · show tEnterD gEx rCx < tExitD gEx rCx
    rw [hEnter, hExit]
    norm_num
  · have e : (rayIdx rCx (nnT gEx rCx oEx 0)).1 = truncZ (-3/2 : ℚ) := by
      norm_num [rayIdx, rayPos, rCx]
    rw [e]
    have h1 : truncZ (-3/2 : ℚ) = Int.ceil (-3/2 : ℚ) := by
      norm_num [truncZ]
    rw [h1]
    have h2 : Int.ceil (-3/2 : ℚ) ≤ -1 := Int.ceil_le.mpr (by norm_num)
    omega

/-- Claim C9, amended: every `links`/`data` access of the pure paths is in
bounds *provided every direction component is nonzero* (and `R_i ≥ 2`):
(a) in `sample` the clamps put each corner index in `[0, R_i − 2]` so the
`+1` corners stay `≤ R_i − 1`; (b) in the NN loop, for every iteration with
`t < tmax`, the slab test forces the truncated index into `[0, R_i − 2]`;
(c) the same for the trilerp loop, so its `+1` corners stay in range too.
For rays with a zero direction component the guarantee fails (see the
counterexample): the `1e9` sentinel can admit positions outside the box on
the zero axes. -/
theorem C9_amended_index_in_bounds :
    (∀ (g : SGrid) (gcoords : Bool) (p : V3),
      2 ≤ g.rx → 2 ≤ g.ry → 2 ≤ g.rz →
      (0 ≤ (sampleLo g gcoords p).1 ∧ (sampleLo g gcoords p).1 ≤ (g.rx : ℤ) - 2) ∧
      (0 ≤ (sampleLo g gcoords p).2.1 ∧ (sampleLo g gcoords p).2.1 ≤ (g.ry : ℤ) - 2) ∧
      (0 ≤ (sampleLo g gcoords p).2.2 ∧ (sampleLo g gcoords p).2.2 ≤ (g.rz : ℤ) - 2)) ∧
    (∀ (g : SGrid) (r : RaySpec) (o : RenderOptions),
      r.d.x ≠ 0 → r.d.y ≠ 0 → r.d.z ≠ 0 →
      2 ≤ g.rx → 2 ≤ g.ry → 2 ≤ g.rz → 0 ≤ o.step_epsilon →
      ∀ n, nnT g r o n < tExitD g r →
        (0 ≤ (rayIdx r (nnT g r o n)).1 ∧ (rayIdx r (nnT g r o n)).1 ≤ (g.rx : ℤ) - 2) ∧
        (0 ≤ (rayIdx r (nnT g r o n)).2.1 ∧ (rayIdx r (nnT g r o n)).2.1 ≤ (g.ry : ℤ) - 2) ∧
        (0 ≤ (rayIdx r (nnT g r o n)).2.2 ∧ (rayIdx r (nnT g r o n)).2.2 ≤ (g.rz : ℤ) - 2)) ∧
    (∀ (g : SGrid) (r : RaySpec) (o : RenderOptions),
      r.d.x ≠ 0 → r.d.y ≠ 0 → r.d.z ≠ 0 →
      2 ≤ g.rx → 2 ≤ g.ry → 2 ≤ g.rz → 0 ≤ o.step_size →
      ∀ n, lerpT g r o n < tExitD g r →
        (0 ≤ (rayIdx r (lerpT g r o n)).1 ∧ (rayIdx r (lerpT g r o n)).1 ≤ (g.rx : ℤ) - 2) ∧
        (0 ≤ (rayIdx r (lerpT g r o n)).2.1 ∧ (rayIdx r (lerpT g r o n)).2.1 ≤ (g.ry : ℤ) - 2) ∧
        (0 ≤ (rayIdx r (lerpT g r o n)).2.2 ∧ (rayIdx r (lerpT g r o n)).2.2 ≤ (g.rz : ℤ) - 2)) := by
  refine ⟨?_, ?_, ?_⟩
  · intro g gcoords p hRx hRy hRz
    have e1 : (sampleLo g gcoords p).1 =
        min (truncZ (sampleP2 g gcoords p).x) ((g.rx : ℤ) - 2) := rfl
    have e2 : (sampleLo g gcoords p).2.1 =
        min (truncZ (sampleP2 g gcoords p).y) ((g.ry : ℤ) - 2) := rfl
    have e3 : (sampleLo g gcoords p).2.2 =
        min (truncZ (sampleP2 g gcoords p).z) ((g.rz : ℤ) - 2) := rfl
    have hx0 : 0 ≤ (sampleP2 g gcoords p).x :=
      clampAx_nonneg _ _ (le_trans (by norm_num) hRx)
    have hy0 : 0 ≤ (sampleP2 g gcoords p).y :=
      clampAx_nonneg _ _ (le_trans (by norm_num) hRy)
    have hz0 : 0 ≤ (sampleP2 g gcoords p).z :=
      clampAx_nonneg _ _ (le_trans (by norm_num) hRz)
    rw [e1, e2, e3, truncZ_of_nonneg hx0, truncZ_of_nonneg hy0, truncZ_of_nonneg hz0]
    refine ⟨⟨le_min (Int.floor_nonneg.mpr hx0) (by omega), min_le_right _ _⟩,
            ⟨le_min (Int.floor_nonneg.mpr hy0) (by omega), min_le_right _ _⟩,
            ⟨le_min (Int.floor_nonneg.mpr hz0) (by omega), min_le_right _ _⟩⟩
  · intro g r o hdx hdy hdz hRx hRy hRz heps n hn
    exact idx_inrange_at g r _ hdx hdy hdz hRx hRy hRz
      (nnT_ge_enter g r o hdx hdy hdz hRx hRy hRz heps n) hn
  · intro g r o hdx hdy hdz hRx hRy hRz hss n hn
    exact idx_inrange_at g r _ hdx hdy hdz hRx hRy hRz
      (lerpT_ge_enter g r o hss n) hn

/-- In-box ray with all direction components nonzero:
`d = (1/3, 2/3, 2/3)` is a unit vector. -/
def rQ : RaySpec := ⟨⟨3/2, 3/2, 3/2⟩, ⟨1/3, 2/3, 2/3⟩, 1, fun _ => 0⟩

/-- Witness for the amended C9 at concrete inputs: the sample corner of an
out-of-box point is clamped into range, and the first active NN and trilerp
iterations of the all-nonzero-direction ray `rQ` read in-range indices. -/
theorem C9_amended_index_in_bounds_witness :
    (2 ≤ gEx.rx ∧ 2 ≤ gEx.ry ∧ 2 ≤ gEx.rz ∧
     rQ.d.x ≠ 0 ∧ rQ.d.y ≠ 0 ∧ rQ.d.z ≠ 0 ∧
     (0:ℚ) ≤ oBg.step_epsilon ∧ (0:ℚ) ≤ oBg.step_size ∧
     nnT gEx rQ oBg 0 < tExitD gEx rQ ∧ lerpT gEx rQ oBg 0 < tExitD gEx rQ) ∧
    (0 ≤ (sampleLo gEx true ⟨5, -1, 7/2⟩).1 ∧
      (sampleLo gEx true ⟨5, -1, 7/2⟩).1 ≤ (gEx.rx : ℤ) - 2) ∧
    (0 ≤ (rayIdx rQ (nnT gEx rQ oBg 0)).1 ∧
      (rayIdx rQ (nnT gEx rQ oBg 0)).1 ≤ (gEx.rx : ℤ) - 2) ∧
    (0 ≤ (rayIdx rQ (lerpT gEx rQ oBg 0)).2.2 ∧
      (rayIdx rQ (lerpT gEx rQ oBg 0)).2.2 ≤ (gEx.rz : ℤ) - 2) := by
  have hRx : 2 ≤ gEx.rx := by norm_num [gEx]
  have hRy : 2 ≤ gEx.ry := by norm_num [gEx]
  have hRz : 2 ≤ gEx.rz := by norm_num [gEx]
  have hdx : rQ.d.x ≠ 0 := by norm_num [rQ]
  have hdy : rQ.d.y ≠ 0 := by norm_num [rQ]
  have hdz : rQ.d.z ≠ 0 := by norm_num [rQ]
  have heps : (0:ℚ) ≤ oBg.step_epsilon := by norm_num [oBg]
  have hss : (0:ℚ) ≤ oBg.step_size := by norm_num [oBg]
  have hactN : nnT gEx rQ oBg 0 < tExitD gEx rQ := by
    show tEnterD gEx rQ < tExitD gEx rQ
    norm_num [tEnterD, tExitD, axT1, axT2, invOf, sentInv, slabLo, gEx, rQ, min_def, max_def]
  have hactL : lerpT gEx rQ oBg 0 < tExitD gEx rQ := by
    show tEnterD gEx rQ < tExitD gEx rQ
    norm_num [tEnterD, tExitD, axT1, axT2, invOf, sentInv, slabLo, gEx, rQ, min_def, max_def]
  exact ⟨⟨hRx, hRy, hRz, hdx, hdy, hdz, heps, hss, hactN, hactL⟩,
    (C9_amended_index_in_bounds.1 gEx true ⟨5, -1, 7/2⟩ hRx hRy hRz).1,
    (C9_amended_index_in_bounds.2.1 gEx rQ oBg hdx hdy hdz hRx hRy hRz heps 0 hactN).1,
    (C9_amended_index_in_bounds.2.2 gEx rQ oBg hdx hdy hdz hRx hRy hRz hss 0 hactL).2.2⟩

/-- Identity enumeration of links at construction:
`torch.arange(capacity)` (line 171), flattened scan order. -/
def ctorLinks (cap : ℕ) : List ℤ := (List.range cap).map Int.ofNat

/-- Link rebuild of `resample` with a running counter: position `i` gets the
running prefix-sum index when the mask holds, else `-1`; this is
`cumsum(mask.int) - 1` masked with `-1` (lines 528-529). -/
def resampleLinksGo : List Bool → ℤ → List ℤ
  | [], _ => []
  | b :: bs, c => (cond b c (-1)) :: resampleLinksGo bs (cond b (c + 1) c)

/-- The links list built by `resample` from the boolean keep-mask in scan
order. -/
def resampleLinks (mask : List Bool) : List ℤ := resampleLinksGo mask 0

/-- Modelled from the spec: the Morton (Z-order) interleaving of the missing
`gen_morton` utility — `(x,y,z) ↦ interleave(x,y,z)` on `k`-bit
coordinates, low bits first (`spec.md` §4.5). -/
def interleave3 : ℕ → ℕ → ℕ → ℕ → ℕ
  | 0, _, _, _ => 0
  | k + 1, x, y, z =>
      x % 2 + 2 * (y % 2) + 4 * (z % 2) + 8 * interleave3 k (x / 2) (y / 2) (z / 2)

/-- De-interleaving, the inverse of `interleave3`. -/
def deint3 : ℕ → ℕ → ℕ × ℕ × ℕ
  | 0, _ => (0, 0, 0)
  | k + 1, m =>
      (m % 2 + 2 * (deint3 k (m / 8)).1,
       (m / 2) % 2 + 2 * (deint3 k (m / 8)).2.1,
       (m / 4) % 2 + 2 * (deint3 k (m / 8)).2.2)

/-- Interleaved codes of `k`-bit coordinates are below `8^k`. -/
theorem interleave3_lt (k : ℕ) :
    ∀ x y z, x < 2 ^ k → y < 2 ^ k → z < 2 ^ k → interleave3 k x y z < 8 ^ k := by
  induction k with
  | zero =>
      intro x y z hx hy hz
      simp [interleave3]
  | succ k ih =>
      intro x y z hx hy hz
      have h2 : (2:ℕ) ^ (k+1) = 2 ^ k * 2 := pow_succ 2 k
      have h8 : (8:ℕ) ^ (k+1) = 8 ^ k * 8 := pow_succ 8 k
      have hx2 : x / 2 < 2 ^ k := by omega
      have hy2 : y / 2 < 2 ^ k := by omega
      have hz2 : z / 2 < 2 ^ k := by omega
      have hi := ih (x / 2) (y / 2) (z / 2) hx2 hy2 hz2
      simp only [interleave3]
      omega

/-- De-interleaving undoes interleaving on `k`-bit coordinates. -/
theorem deint3_interleave3 (k : ℕ) :
    ∀ x y z, x < 2 ^ k → y < 2 ^ k → z < 2 ^ k →
      deint3 k (interleave3 k x y z) = (x, y, z) := by
  induction k with
  | zero =>
      intro x y z hx hy hz
      simp only [pow_zero, Nat.lt_one_iff] at hx hy hz
      subst hx; subst hy; subst hz
      rfl
  | succ k ih =>
      intro x y z hx hy hz
      have h2 : (2:ℕ) ^ (k+1) = 2 ^ k * 2 := pow_succ 2 k
      have hx2 : x / 2 < 2 ^ k := by omega
      have hy2 : y / 2 < 2 ^ k := by omega
      have hz2 : z / 2 < 2 ^ k := by omega
      have hi := ih (x / 2) (y / 2) (z / 2) hx2 hy2 hz2
      set v := interleave3 (k+1) x y z with hv
      have hvdef : v = x % 2 + 2 * (y % 2) + 4 * (z % 2) +
          8 * interleave3 k (x / 2) (y / 2) (z / 2) := rfl
      have hm2 : v % 2 = x % 2 := by omega
      have hd2 : (v / 2) % 2 = y % 2 := by omega
      have hd4 : (v / 4) % 2 = z % 2 := by omega
      have hd8 : v / 8 = interleave3 k (x / 2) (y / 2) (z / 2) := by omega
      show (v % 2 + 2 * (deint3 k (v / 8)).1,
            (v / 2) % 2 + 2 * (deint3 k (v / 8)).2.1,
            (v / 4) % 2 + 2 * (deint3 k (v / 8)).2.2) = (x, y, z)
      rw [hd8, hi, hm2, hd2, hd4]
      have ex : x % 2 + 2 * (x / 2) = x := by omega
      have ey : y % 2 + 2 * (y / 2) = y := by omega
      have ez : z % 2 + 2 * (z / 2) = z := by omega
      simp [ex, ey, ez]

/-- Every code below `8^k` is the interleaving of its de-interleaved `k`-bit
coordinates. -/
theorem interleave3_deint3 (k : ℕ) :
    ∀ m, m < 8 ^ k →
      (deint3 k m).1 < 2 ^ k ∧ (deint3 k m).2.1 < 2 ^ k ∧ (deint3 k m).2.2 < 2 ^ k ∧
      interleave3 k (deint3 k m).1 (deint3 k m).2.1 (deint3 k m).2.2 = m := by
  induction k with
  | zero =>
      intro m hm
      simp only [pow_zero, Nat.lt_one_iff] at hm
      subst hm
      exact ⟨by simp [deint3], by simp [deint3], by simp [deint3], rfl⟩
  | succ k ih =>
      intro m hm
      have h8 : (8:ℕ) ^ (k+1) = 8 ^ k * 8 := pow_succ 8 k
      have hm8 : m / 8 < 8 ^ k := by omega
      obtain ⟨hx, hy, hz, hi⟩ := ih (m / 8) hm8
      have h2 : (2:ℕ) ^ (k+1) = 2 ^ k * 2 := pow_succ 2 k
      refine ⟨?_, ?_, ?_, ?_⟩
      · show m % 2 + 2 * (deint3 k (m / 8)).1 < 2 ^ (k+1)
        omega
      · show (m / 2) % 2 + 2 * (deint3 k (m / 8)).2.1 < 2 ^ (k+1)
        omega
      · show (m / 4) % 2 + 2 * (deint3 k (m / 8)).2.2 < 2 ^ (k+1)
        omega
      · show (m % 2 + 2 * (deint3 k (m / 8)).1) % 2 +
          2 * (((m / 2) % 2 + 2 * (deint3 k (m / 8)).2.1) % 2) +
          4 * (((m / 4) % 2 + 2 * (deint3 k (m / 8)).2.2) % 2) +
          8 * interleave3 k ((m % 2 + 2 * (deint3 k (m / 8)).1) / 2)
            (((m / 2) % 2 + 2 * (deint3 k (m / 8)).2.1) / 2)
            (((m / 4) % 2 + 2 * (deint3 k (m / 8)).2.2) / 2) = m
        have e1 : (m % 2 + 2 * (deint3 k (m / 8)).1) / 2 = (deint3 k (m / 8)).1 := by omega
        have e2 : ((m / 2) % 2 + 2 * (deint3 k (m / 8)).2.1) / 2 = (deint3 k (m / 8)).2.1 := by
          omega
        have e3 : ((m / 4) % 2 + 2 * (deint3 k (m / 8)).2.2) / 2 = (deint3 k (m / 8)).2.2 := by
          omega
        rw [e1, e2, e3, hi]
        omega

/-- The rebuilt links list has one entry per mask entry. -/
theorem resampleLinksGo_length : ∀ (bs : List Bool) (c : ℤ),
    (resampleLinksGo bs c).length = bs.length := by
  intro bs
  induction bs with
  | nil => intro c; rfl
  | cons b bs ih =>
      intro c
      simp [resampleLinksGo, ih]

/-- The nonnegative entries of the rebuilt links are exactly the `count`
consecutive integers starting at the initial counter, in scan order. -/
theorem resampleLinksGo_filter : ∀ (bs : List Bool) (c : ℤ), 0 ≤ c →
    (resampleLinksGo bs c).filter (fun v => decide (0 ≤ v)) =
      (List.range (bs.count true)).map (fun i : ℕ => c + (i : ℤ)) := by
  intro bs
  induction bs with
  | nil => intro c _; rfl
  | cons b bs ih =>
      intro c hc
      cases b with
      | true =>
          have IH := ih (c + 1) (by linarith)
          simp only [resampleLinksGo, cond_true, List.filter_cons, decide_eq_true_eq]
          rw [if_pos hc]
          have hcount : (true :: bs).count true = bs.count true + 1 := by
            simp [List.count_cons]
          rw [hcount, List.range_succ_eq_map, List.map_cons, List.map_map]
          rw [IH]
          congr 1
          · norm_num
          · apply List.map_congr_left
            intro i _
            simp only [Function.comp]
            push_cast
            ring
      | false =>
          have IH := ih c hc
          simp only [resampleLinksGo, cond_false, List.filter_cons, decide_eq_true_eq]
          rw [if_neg (by norm_num : ¬ ((0:ℤ) ≤ -1))]
          have hcount : (false :: bs).count true = bs.count true := by
            simp [List.count_cons]
          rw [hcount, IH]

/-- Positionally, the rebuilt links hold `-1` exactly where the mask is
false. -/
theorem resampleLinksGo_getD : ∀ (bs : List Bool) (c : ℤ), 0 ≤ c →
    ∀ i, i < bs.length →
      ((resampleLinksGo bs c).getD i 0 = -1 ↔ bs.getD i true = false) := by
  intro bs
  induction bs with
  | nil =>
      intro c _ i hi
      simp at hi
  | cons b bs ih =>
      intro c hc i hi
      cases i with
      | zero =>
          cases b with
          | true =>
              simp only [resampleLinksGo, cond_true, List.getD_cons_zero]
              have hne : ¬ (c = -1) := by omega
              simp [hne]
          | false =>
              simp [resampleLinksGo]
      | succ j =>
          have hj : j < bs.length := by
            simpa using hi
          cases b with
          | true =>
              simp only [resampleLinksGo, cond_true, List.getD_cons_succ]
              exact ih (c + 1) (by linarith) j hj
          | false =>
              simp only [resampleLinksGo, cond_false, List.getD_cons_succ]
              exact ih c hc j hj

/-- Claim C5: (a) at construction (identity branch) the links are the full
enumeration `0..cap-1` in scan order, so the capacity equals the number of
nonnegative entries and they form a permutation of `{0..N-1}`; (b) the
Morton branch (modelled from the spec) is a bijection of the `2^k` cube onto
`{0..8^k-1}`: bounded, injective and surjective; (c) after `resample`, the
links have one entry per mask position, the nonnegative entries are exactly
`0..N-1` in scan order with `N = count(mask)` (the prefix-sum construction),
and an entry is `-1` exactly where the mask is false. -/
theorem C5_links_permutation :
    (∀ cap : ℕ,
      (ctorLinks cap).length = cap ∧
      (ctorLinks cap).filter (fun v => decide (0 ≤ v)) = (List.range cap).map Int.ofNat) ∧
    (∀ k : ℕ,
      (∀ x y z, x < 2 ^ k → y < 2 ^ k → z < 2 ^ k → interleave3 k x y z < 8 ^ k) ∧
      (∀ x y z x' y' z', x < 2 ^ k → y < 2 ^ k → z < 2 ^ k →
        x' < 2 ^ k → y' < 2 ^ k → z' < 2 ^ k →
        interleave3 k x y z = interleave3 k x' y' z' → x = x' ∧ y = y' ∧ z = z') ∧
      (∀ m, m < 8 ^ k → ∃ x y z, x < 2 ^ k ∧ y < 2 ^ k ∧ z < 2 ^ k ∧
        interleave3 k x y z = m)) ∧
    (∀ mask : List Bool,
      (resampleLinks mask).length = mask.length ∧
      (resampleLinks mask).filter (fun v => decide (0 ≤ v)) =
        (List.range (mask.count true)).map Int.ofNat ∧
      ((resampleLinks mask).filter (fun v => decide (0 ≤ v))).length = mask.count true ∧
      (∀ i, i < mask.length →
        ((resampleLinks mask).getD i 0 = -1 ↔ mask.getD i true = false))) := by
  refine ⟨?_, ?_, ?_⟩
  · intro cap
    constructor
    · simp [ctorLinks]
    · apply List.filter_eq_self.mpr
      intro a ha
      simp only [ctorLinks, List.mem_map, List.mem_range] at ha
      obtain ⟨i, _, rfl⟩ := ha
      simp
  · intro k
    refine ⟨interleave3_lt k, ?_, ?_⟩
    · intro x y z x' y' z' hx hy hz hx' hy' hz' heq
      have h1 := deint3_interleave3 k x y z hx hy hz
      have h2 := deint3_interleave3 k x' y' z' hx' hy' hz'
      rw [heq, h2] at h1
      injection h1 with e1 e2
      injection e2 with e2 e3
      exact ⟨e1.symm, e2.symm, e3.symm⟩
    · intro m hm
      obtain ⟨hx, hy, hz, hi⟩ := interleave3_deint3 k m hm
      exact ⟨_, _, _, hx, hy, hz, hi⟩
  · intro mask
    have hfil := resampleLinksGo_filter mask 0 (le_refl 0)
    have hfil' : (resampleLinks mask).filter (fun v => decide (0 ≤ v)) =
        (List.range (mask.count true)).map Int.ofNat := by
      rw [resampleLinks, hfil]
      apply List.map_congr_left
      intro i _
      show (0:ℤ) + (i:ℤ) = Int.ofNat i
      rw [zero_add]
      rfl
    refine ⟨resampleLinksGo_length mask 0, hfil', ?_, ?_⟩
    · rw [hfil']
      simp
    · intro i hi
      exact resampleLinksGo_getD mask 0 (le_refl 0) i hi

/-- Witness for C5 at concrete inputs: a capacity-6 identity enumeration, the
`k = 2` Morton bijection at concrete coordinates and code, and the mask
`[true, false, true]`. -/
theorem C5_links_permutation_witness :
    ((ctorLinks 6).filter (fun v => decide (0 ≤ v)) = (List.range 6).map Int.ofNat) ∧
    ((1:ℕ) < 2 ^ 2 ∧ (2:ℕ) < 2 ^ 2 ∧ (3:ℕ) < 2 ^ 2 ∧ interleave3 2 1 2 3 < 8 ^ 2) ∧
    ((37:ℕ) < 8 ^ 2 ∧ ∃ x y z, x < 2 ^ 2 ∧ y < 2 ^ 2 ∧ z < 2 ^ 2 ∧
      interleave3 2 x y z = 37) ∧
    ((resampleLinks [true, false, true]).filter (fun v => decide (0 ≤ v)) =
      (List.range ([true, false, true].count true)).map Int.ofNat) ∧
    ((1:ℕ) < ([true, false, true] : List Bool).length ∧
      ((resampleLinks [true, false, true]).getD 1 0 = -1 ↔
        ([true, false, true] : List Bool).getD 1 true = false)) := by
  have h1 : (1:ℕ) < 2 ^ 2 := by norm_num
  have h2 : (2:ℕ) < 2 ^ 2 := by norm_num
  have h3 : (3:ℕ) < 2 ^ 2 := by norm_num
  have h37 : (37:ℕ) < 8 ^ 2 := by norm_num
  have hlen : (1:ℕ) < ([true, false, true] : List Bool).length := by norm_num
  exact ⟨(C5_links_permutation.1 6).2,
    ⟨h1, h2, h3, (C5_links_permutation.2.1 2).1 1 2 3 h1 h2 h3⟩,
    ⟨h37, (C5_links_permutation.2.1 2).2.2 37 h37⟩,
    (C5_links_permutation.2.2 [true, false, true]).2.1,
    ⟨hlen, (C5_links_permutation.2.2 [true, false, true]).2.2.2 1 hlen⟩⟩

/-- Modelled from the spec: the integer-square-root validation of the
missing `utils.isqrt` — `some` of the root when the argument is a perfect
square, `none` otherwise (used by the `basis_dim` assert, line 154). -/
def isqrtOpt (n : ℕ) : Option ℕ :=
  if Nat.sqrt n * Nat.sqrt n = n then some (Nat.sqrt n) else none

/-- Modelled from the spec: the power-of-two test of the missing
`utils.is_pow2` (line 165). -/
def isPow2 (n : ℕ) : Bool := n != 0 && (n &&& (n - 1)) == 0

/-- Typed constructor errors: the two asserts of `SparseGrid.__init__`
(lines 154-155). -/
inductive InitErr where
  | basisNotSquare : InitErr
  | basisOutOfRange : InitErr

/-- The grid state produced by the constructor: resolution, capacity, the
flattened links, whether Morton order was used, the payload shape and
contents, and the SH basis size. -/
structure GridInit where
  rx : ℕ
  ry : ℕ
  rz : ℕ
  capacity : ℕ
  linksFlat : List ℤ
  usedZ : Bool
  dataRows : ℕ
  dataCols : ℕ
  dataVal : ℕ → ℕ → ℚ
  basisDim : ℕ

/-- Modelled from the spec: `gen_morton` produces the interleaved codes of
the cube in scan order (`spec.md` §4.5); the side is `2^k` with
`k = log2 side`. -/
def mortonLinks (s : ℕ) : List ℤ :=
  (List.range s).flatMap fun x =>
    (List.range s).flatMap fun y =>
      (List.range s).map fun z => (interleave3 (Nat.log2 s) x y z : ℤ)

/-- The link/payload setup of `SparseGrid.__init__` (lines 145-194):
validate `basis_dim` (square, in `[1,16]`), fall back to the identity
enumeration unless a power-of-two cube was requested with `use_z_order`,
and zero-initialize the payload of shape `(capacity, 3*basis_dim + 1)`.
The `isqrt`/`is_pow2`/`gen_morton` utilities come from the missing utils
module and are modelled from the spec. -/
def initGrid (rx ry rz basis_dim : ℕ) (use_z_order : Bool) : Except InitErr GridInit :=
  if isqrtOpt basis_dim = none then .error .basisNotSquare
  else if ¬ (1 ≤ basis_dim ∧ basis_dim ≤ 16) then .error .basisOutOfRange
  else if use_z_order && (decide (rx = ry) && decide (rx = rz) && isPow2 rx) then
    .ok ⟨rx, ry, rz, rx * ry * rz, mortonLinks rx, true,
         rx * ry * rz, basis_dim * 3 + 1, fun _ _ => 0, basis_dim⟩
  else
    .ok ⟨rx, ry, rz, rx * ry * rz, ctorLinks (rx * ry * rz), false,
         rx * ry * rz, basis_dim * 3 + 1, fun _ _ => 0, basis_dim⟩

/-- Scan-order index of a lattice site is below the capacity. -/
theorem scanIdx_lt {rx ry rz x y z : ℕ} (hx : x < rx) (hy : y < ry) (hz : z < rz) :
    x * ry * rz + y * rz + z < rx * ry * rz := by
  calc x * ry * rz + y * rz + z < x * ry * rz + y * rz + rz := by omega
  _ = x * (ry * rz) + (y + 1) * rz := by ring
  _ ≤ x * (ry * rz) + ry * rz := by
      have h1 : (y + 1) * rz ≤ ry * rz := mul_le_mul_right' hy _
      omega
  _ = (x + 1) * (ry * rz) := by ring
  _ ≤ rx * (ry * rz) := mul_le_mul_right' hx _
  _ = rx * ry * rz := by ring

/-- The identity enumeration holds `i` at flat position `i`. -/
theorem ctorLinks_getD (cap i : ℕ) (h : i < cap) :
    (ctorLinks cap).getD i (-1) = (i : ℤ) := by
  unfold ctorLinks
  have hlen : i < ((List.range cap).map Int.ofNat).length := by simpa using h
  rw [List.getD_eq_getElem _ _ hlen, List.getElem_map, List.getElem_range]
  rfl

/-- Claim C8: construction fails with a typed error whenever `basis_dim` is
not a perfect square in `[1, 16]`; and when `use_z_order` is requested on a
resolution that is not a power-of-two cube, construction succeeds with
z-order ignored — the links are the identity enumeration
`L[x,y,z] = x*Ry*Rz + y*Rz + z` and the payload is the zero matrix of shape
`(Rx*Ry*Rz, 3*basis_dim + 1)`. -/
theorem C8_constructor_validation :
    (∀ rx ry rz B zo, (isqrtOpt B = none ∨ B < 1 ∨ 16 < B) →
      ∃ e, initGrid rx ry rz B zo = .error e) ∧
    (∀ rx ry rz B, isqrtOpt B ≠ none → 1 ≤ B → B ≤ 16 →
      ¬ (rx = ry ∧ rx = rz ∧ isPow2 rx = true) →
      initGrid rx ry rz B true =
        .ok ⟨rx, ry, rz, rx * ry * rz, ctorLinks (rx * ry * rz), false,
             rx * ry * rz, B * 3 + 1, fun _ _ => 0, B⟩ ∧
      (∀ x y z, x < rx → y < ry → z < rz →
        (ctorLinks (rx * ry * rz)).getD (x * ry * rz + y * rz + z) (-1) =
          ((x * ry * rz + y * rz + z : ℕ) : ℤ))) := by
  constructor
  · intro rx ry rz B zo h
    by_cases hsq : isqrtOpt B = none
    · refine ⟨.basisNotSquare, ?_⟩
      unfold initGrid
      rw [if_pos hsq]
    · have hB : B < 1 ∨ 16 < B := by tauto
      refine ⟨.basisOutOfRange, ?_⟩
      unfold initGrid
      rw [if_neg hsq, if_pos (show ¬ (1 ≤ B ∧ B ≤ 16) by omega)]
  · intro rx ry rz B hsq hB1 hB16 hnc
    have hcond : ¬ (true && (decide (rx = ry) && decide (rx = rz) && isPow2 rx)) = true := by
      simp only [Bool.true_and, Bool.and_eq_true, decide_eq_true_eq]
      tauto
    constructor
    · unfold initGrid
      rw [if_neg hsq, if_neg (show ¬ ¬ (1 ≤ B ∧ B ≤ 16) by tauto), if_neg hcond]
    · intro x y z hx hy hz
      exact ctorLinks_getD _ _ (scanIdx_lt hx hy hz)

/-- Witness for C8: `basis_dim = 3` (not a square) fails; a `3×3×3` cube
(not a power of two) with `use_z_order = true` succeeds with identity links
and the zero payload of width `13` for `basis_dim = 4`. -/
theorem C8_constructor_validation_witness :
    (isqrtOpt 3 = none ∨ 3 < 1 ∨ 16 < 3) ∧
    (∃ e, initGrid 4 4 4 3 false = Except.error e) ∧
    (isqrtOpt 4 ≠ none ∧ 1 ≤ 4 ∧ 4 ≤ 16 ∧
      ¬ ((3:ℕ) = 3 ∧ (3:ℕ) = 3 ∧ isPow2 3 = true)) ∧
    initGrid 3 3 3 4 true =
      Except.ok ⟨3, 3, 3, 27, ctorLinks 27, false, 27, 13, fun _ _ => 0, 4⟩ := by
  have hs3 : Nat.sqrt 3 = 1 := by
    have h1 : 1 ≤ Nat.sqrt 3 := Nat.le_sqrt.mpr (by norm_num)
    have h2 : Nat.sqrt 3 < 2 := Nat.sqrt_lt.mpr (by norm_num)
    omega
  have hs4 : Nat.sqrt 4 = 2 := by
    have h1 : 2 ≤ Nat.sqrt 4 := Nat.le_sqrt.mpr (by norm_num)
    have h2 : Nat.sqrt 4 < 3 := Nat.sqrt_lt.mpr (by norm_num)
    omega
  have hsq3 : isqrtOpt 3 = none := by
    unfold isqrtOpt
    rw [hs3]
    norm_num
  have hsq4 : isqrtOpt 4 ≠ none := by
    unfold isqrtOpt
    rw [hs4]
    simp
  have hp3 : ¬ ((3:ℕ) = 3 ∧ (3:ℕ) = 3 ∧ isPow2 3 = true) := by decide
  refine ⟨Or.inl hsq3,
    C8_constructor_validation.1 4 4 4 3 false (Or.inl hsq3),
    ⟨hsq4, by norm_num, by norm_num, hp3⟩, ?_⟩
  exact (C8_constructor_validation.2 3 3 3 4 hsq4 (by norm_num) (by norm_num) hp3).1

/-- Clamp all three coordinates of a point into the grid box
(`clamp_min_` and the per-axis `clamp_max_`, lines 230-232). -/
def clampPtV (g : SGrid) (p : V3) : V3 :=
  ⟨clampAx g.rx p.x, clampAx g.ry p.y, clampAx g.rz p.z⟩

/-- Heap model for the head of the pure `sample` path (lines 228-235): the
store maps tensor references to point lists; `world2grid` (`addcmul`)
allocates a fresh tensor, rebinding the local name, while the in-place
clamps write through whatever reference the local name currently holds.
Returns the updated store and the reference the rest of `sample` reads. -/
def sampleBuffers (g : SGrid) (store : List (List V3)) (p : ℕ) (gcoords : Bool) :
    List (List V3) × ℕ :=
  if gcoords then
    (store.set p ((store.getD p []).map (clampPtV g)), p)
  else
    let store1 := store ++ [(store.getD p []).map (w2gV g)]
    (store1.set store.length ((store1.getD store.length []).map (clampPtV g)),
     store.length)

/-- Claim C10: with `grid_coords = true` the caller's points tensor is
mutated in place — after `sample`'s clamps, the buffer at the caller's
reference holds the clamped coordinates; with `grid_coords = false` the
caller's tensor is unchanged, because `world2grid` allocates a fresh tensor
and the clamps operate on that. -/
theorem C10_sample_points_aliasing :
    (∀ (g : SGrid) (store : List (List V3)) (p : ℕ), p < store.length →
      (sampleBuffers g store p true).1.getD p [] =
        (store.getD p []).map (clampPtV g)) ∧
    (∀ (g : SGrid) (store : List (List V3)) (p : ℕ), p < store.length →
      (sampleBuffers g store p false).1.getD p [] = store.getD p []) := by
  constructor
  · intro g store p hp
    show (store.set p ((store.getD p []).map (clampPtV g))).getD p [] = _
    have hlen : p < (store.set p ((store.getD p []).map (clampPtV g))).length := by
      simpa using hp
    rw [List.getD_eq_getElem _ _ hlen, List.getElem_set_self]
  · intro g store p hp
    show ((store ++ [(store.getD p []).map (w2gV g)]).set store.length
        (((store ++ [(store.getD p []).map (w2gV g)]).getD store.length []).map
          (clampPtV g))).getD p [] = store.getD p []
    have hlen1 : p < ((store ++ [(store.getD p []).map (w2gV g)]).set store.length
        (((store ++ [(store.getD p []).map (w2gV g)]).getD store.length []).map
          (clampPtV g))).length := by
      simp
      omega
    rw [List.getD_eq_getElem _ _ hlen1]
    rw [List.getElem_set_ne (by omega)]
    rw [List.getElem_append_left hp]
    rw [List.getD_eq_getElem _ _ hp]

/-- Concrete single-tensor store for the C10 witness. -/
def storeEx : List (List V3) := [[⟨5, -1, 2⟩]]

/-- Witness for C10 at the concrete store: with `grid_coords = true` the
caller's buffer is replaced by its clamp, with `grid_coords = false` it is
untouched. -/
theorem C10_sample_points_aliasing_witness :
    ((0:ℕ) < storeEx.length) ∧
    (sampleBuffers gEx storeEx 0 true).1.getD 0 [] =
      (storeEx.getD 0 []).map (clampPtV gEx) ∧
    (sampleBuffers gEx storeEx 0 false).1.getD 0 [] = storeEx.getD 0 [] := by
  have h0 : (0:ℕ) < storeEx.length := by norm_num [storeEx]
  exact ⟨h0, C10_sample_points_aliasing.1 gEx storeEx 0 h0,
    C10_sample_points_aliasing.2 gEx storeEx 0 h0⟩
